import Mathlib

/-!
Verification development for the ptrck-agent-core repository.

Part 1 models the multi-replica dataset reconciliation core described in the
design document (record normalizer, content key index, global reconciliation
index, divergence detector, plan builder, applier).  That code is not shipped
in the repository sources, so every definition in part 1 carries a doc comment
starting with the words Modelled from the spec.

Part 2 embeds concrete helper functions from the repository sources:
get_base_url (tools-api scripts), parse_figma_url (figma_api.py) and
run_jira (jira_cli.py).
-/

/-- Modelled from the spec: payloads are mutable comparison targets; we model
them as string-keyed mappings (association lists).  The reconciliation code
itself is missing from the sources. -/
abbrev Payload := List (String × String)

/-- Modelled from the spec: the normalization rule of the Divergence Detector,
treating a null/absent payload as semantically equal to an empty container. -/
def normalizePayload (p : Option Payload) : Payload := p.getD []

/-- Modelled from the spec: a canonical Record, the unit of data stored in a
replica, as produced by the Record Normalizer (missing from the sources). -/
structure Record where
  identity_key : String
  record_id : String
  payload : Option Payload
  created_at : Nat
  deriving DecidableEq

/-- Modelled from the spec: a Replica is a named, independently mutable store
of Records (the reconciliation data model is missing from the sources). -/
structure Replica where
  replica_id : String
  display_name : String
  records : List Record
  deriving DecidableEq

/-- Modelled from the spec: a Pending Update, a planned mutation that has not
yet been applied (the reconciliation data model is missing from the sources). -/
structure PendingUpdate where
  replica_id : String
  record_id : String
  identity_key : String
  old_payload : Option Payload
  new_payload : Option Payload
  source_replica_id : String
  deriving DecidableEq

/-- Modelled from the spec: the error raised by the Record Normalizer when the
identity field of a raw record is absent (normalizer missing from sources). -/
inductive MalformedRecordError where
  | missingIdentity
  deriving DecidableEq

/-- Modelled from the spec: a raw fetched record before normalization; the
identity field is an optional mapping, None meaning the field is absent. -/
structure RawRecord where
  identity : Option (List (String × String))
  record_id : String
  payload : Option Payload
  created_at : Nat
  deriving DecidableEq

/-- Insert one key-value pair into a list sorted by key (helper for the
canonical serialization of identity fields). -/
def insertSorted (p : String × String) : List (String × String) → List (String × String)
  | [] => [p]
  | q :: rest => if p.1 < q.1 then p :: q :: rest else q :: insertSorted p rest

/-- Sort a mapping by key (insertion sort; models deterministic key ordering
used for canonical serialization). -/
def sortByKey (l : List (String × String)) : List (String × String) :=
  l.foldr insertSorted []

/-- Serialize a mapping as a flat string (stand-in for canonical JSON
serialization of the identity field). -/
def serializeMapping (l : List (String × String)) : String :=
  l.foldl (fun acc p => acc ++ p.1 ++ "=" ++ p.2 ++ ";") ""

/-- Modelled from the spec: the canonical identity key derivation, serializing
the identity mapping with deterministically sorted keys so that structurally
equal values collapse to the same key (normalizer missing from sources). -/
def canonicalIdentityKey (m : List (String × String)) : String :=
  serializeMapping (sortByKey m)

/-- Modelled from the spec: the Record Normalizer contract, failing with
MalformedRecordError exactly when the identity field is absent (normalizer
missing from the sources). -/
def normalizeRecord (raw : RawRecord) : Except MalformedRecordError Record :=
  match raw.identity with
  | none => Except.error MalformedRecordError.missingIdentity
  | some idv =>
      Except.ok ⟨canonicalIdentityKey idv, raw.record_id, raw.payload, raw.created_at⟩

/-- Modelled from the spec: normalizing a whole fetch result, dropping (and
counting) malformed records without aborting the run (missing from sources). -/
def normalizeAll (raws : List RawRecord) : List Record × Nat :=
  raws.foldl
    (fun acc raw =>
      match normalizeRecord raw with
      | Except.ok r => (acc.1 ++ [r], acc.2)
      | Except.error _ => (acc.1, acc.2 + 1))
    ([], 0)

/-- Association-list lookup (models Python dict lookup by key). -/
def lookupA {α : Type} : List (String × α) → String → Option α
  | [], _ => none
  | (k0, v) :: rest, k => if k0 = k then some v else lookupA rest k

/-- Modelled from the spec: one step of the Content Key Index builder; keep
the record with the strictly greater created_at, ties keep the first-seen
record, preserving dict insertion order (index builder missing from sources). -/
def upsertIndex : List (String × Record) → Record → List (String × Record)
  | [], r => [(r.identity_key, r)]
  | (k0, r0) :: rest, r =>
      if k0 = r.identity_key then
        if r0.created_at < r.created_at then (k0, r) :: rest else (k0, r0) :: rest
      else (k0, r0) :: upsertIndex rest r

/-- Modelled from the spec: the Content Key Index builder, iterating the fetch
order and collapsing intra-replica duplicates last-write-wins (missing from
the sources). -/
def buildIndex (records : List Record) : List (String × Record) :=
  records.foldl upsertIndex []

/-- Modelled from the spec: the Global Reconciliation Index entry insertion,
appending one (replica, record) observation to the list of its identity key
(the global index code is missing from the sources). -/
def addEntry : List (String × List (String × Record)) → String → String → Record →
    List (String × List (String × Record))
  | [], rid, k, r => [(k, [(rid, r)])]
  | (k0, lst) :: rest, rid, k, r =>
      if k0 = k then (k0, lst ++ [(rid, r)]) :: rest
      else (k0, lst) :: addEntry rest rid k r

/-- Modelled from the spec: merging one replica's Content Key Index into the
Global Reconciliation Index (missing from the sources). -/
def addReplicaIndex (g : List (String × List (String × Record))) (rid : String)
    (idx : List (String × Record)) : List (String × List (String × Record)) :=
  idx.foldl (fun g kr => addEntry g rid kr.1 kr.2) g

/-- Modelled from the spec: building the Global Reconciliation Index from a
list of (replica id, Content Key Index) pairs in replica iteration order. -/
def globalIndexAux (l : List (String × List (String × Record))) :
    List (String × List (String × Record)) :=
  l.foldl (fun g p => addReplicaIndex g p.1 p.2) []

/-- Modelled from the spec: the Global Reconciliation Index of a replica set,
mapping each identity key to the ordered list of (replica id, Record) pairs
observed across all replicas (missing from the sources). -/
def globalIndexOf (rs : List Replica) : List (String × List (String × Record)) :=
  globalIndexAux (rs.map (fun rep => (rep.replica_id, buildIndex rep.records)))

/-- Modelled from the spec: authoritative selection scan; keep the current
best unless a strictly greater created_at appears, tracking the index of the
kept element (divergence detector missing from the sources). -/
def pickAuthAux : Nat × String × Record → Nat → List (String × Record) → Nat × String × Record
  | best, _, [] => best
  | best, i, (rid, r) :: rest =>
      if best.2.2.created_at < r.created_at then pickAuthAux (i, rid, r) (i + 1) rest
      else pickAuthAux best (i + 1) rest

/-- Modelled from the spec: select the authoritative (replica, record) pair of
a key's global-index list: maximum created_at, ties broken by the first
replica in iteration order; also returns its position in the list. -/
def pickAuth : List (String × Record) → Option (Nat × String × Record)
  | [] => none
  | (rid, r) :: rest => some (pickAuthAux (0, rid, r) 1 rest)

/-- Modelled from the spec: emit Pending Updates for every non-authoritative
entry whose normalized payload differs from the authoritative payload
(divergence detector missing from the sources). -/
def detectOthers (k arid : String) (arec : Record) (ai : Nat) :
    Nat → List (String × Record) → List PendingUpdate
  | _, [] => []
  | i, (rid, rec) :: rest =>
      if i ≠ ai ∧ normalizePayload rec.payload ≠ normalizePayload arec.payload then
        ⟨rid, rec.record_id, k, rec.payload, arec.payload, arid⟩ ::
          detectOthers k arid arec ai (i + 1) rest
      else detectOthers k arid arec ai (i + 1) rest

/-- Modelled from the spec: the Divergence Detector for one identity key,
examining only keys present in at least two replicas (missing from sources). -/
def detectKey (k : String) (lst : List (String × Record)) : List PendingUpdate :=
  if 2 ≤ lst.length then
    match pickAuth lst with
    | none => []
    | some (ai, arid, arec) => detectOthers k arid arec ai 0 lst
  else []

/-- Modelled from the spec: the Divergence Detector over the whole Global
Reconciliation Index, in key iteration order (missing from the sources). -/
def detectAll : List (String × List (String × Record)) → List PendingUpdate
  | [] => []
  | (k, lst) :: rest => detectKey k lst ++ detectAll rest

/-- Modelled from the spec: one reconciliation pass from replicas to the flat
list of Pending Updates (missing from the sources). -/
def reconcile (rs : List Replica) : List PendingUpdate :=
  detectAll (globalIndexOf rs)

/-- Modelled from the spec: the Plan Builder output shape, a mapping from
replica id to its Pending Updates, replicas with no divergence mapping to an
empty list (missing from the sources). -/
def planByReplica (rs : List Replica) : List (String × List PendingUpdate) :=
  rs.map (fun rep =>
    (rep.replica_id, (reconcile rs).filter (fun u => u.replica_id = rep.replica_id)))

/-- Serialize one Pending Update as a flat string (models machine-readable
output of the dry-run report). -/
def serializeUpdate (u : PendingUpdate) : String :=
  u.replica_id ++ "|" ++ u.record_id ++ "|" ++ u.identity_key ++ "|" ++
    serializeMapping (normalizePayload u.old_payload) ++ "|" ++
    serializeMapping (normalizePayload u.new_payload) ++ "|" ++ u.source_replica_id

/-- Serialize a per-replica plan as a flat string (models the byte output of
the dry-run report). -/
def serializePlan (plan : List (String × List PendingUpdate)) : String :=
  plan.foldl (fun acc p =>
    acc ++ p.1 ++ ":" ++ p.2.foldl (fun a u => a ++ serializeUpdate u ++ ";") "" ++ "\n") ""

/-- Modelled from the spec: applying one Pending Update to one record; the
upsert addresses the record by its replica-local record_id (applier missing
from the sources). -/
def applyUpdate1 (u : PendingUpdate) (r : Record) : Record :=
  if r.record_id = u.record_id then { r with payload := u.new_payload } else r

/-- Modelled from the spec: one upsert issued against a replica's record set
(applier missing from the sources). -/
def upsertRecords (records : List Record) (u : PendingUpdate) : List Record :=
  records.map (applyUpdate1 u)

/-- Modelled from the spec: the Applier executing a replica's Pending Updates
in order, each independently (missing from the sources). -/
def applyToReplica (rep : Replica) (ups : List PendingUpdate) : Replica :=
  { rep with records := ups.foldl upsertRecords rep.records }

/-- Modelled from the spec: the apply phase, routing every Pending Update to
the replica it names (missing from the sources). -/
def applyPlan (rs : List Replica) (ups : List PendingUpdate) : List Replica :=
  rs.map (fun rep => applyToReplica rep (ups.filter (fun u => u.replica_id = rep.replica_id)))

/-- Applying a whole update list to a single record, record-local view of the
applier used in proofs. -/
def applyUpdates (ups : List PendingUpdate) (r : Record) : Record :=
  ups.foldl (fun r u => applyUpdate1 u r) r

/-- Well-formedness of a replica set per the data model: replica ids are
pairwise distinct, and record ids are pairwise distinct inside each replica
(record_id is the replica-local stable identifier used to address records). -/
abbrev wellFormedReplicas (rs : List Replica) : Prop :=
  (rs.map Replica.replica_id).Nodup ∧
    ∀ rep ∈ rs, (rep.records.map Record.record_id).Nodup

/-!
Part 2: functions embedded from the repository sources.
-/

/-- The environment to base-URL table of the tools-api scripts
(misc_api.py and booking_api.py, function get_base_url). -/
def toolsUrls : List (String × String) :=
  [("prod", "https://api.elmar.nl/tools/"),
   ("acc", "https://api.acc.elmar.nl/tools/"),
   ("dev", "http://localhost:4000/")]

/-- Embedded from misc_api.py / booking_api.py: urls.get(env, urls["prod"]).
The inner default models the dictionary access urls["prod"], which is present
in the table. -/
def get_base_url (env : String) : String :=
  (lookupA toolsUrls env).getD ((lookupA toolsUrls "prod").getD "")

/-- Embedded from figma_api.py: parsed.path.strip of the slash character,
dropping every leading and trailing slash. -/
def stripSlashes (s : String) : String :=
  String.mk (((s.data.dropWhile (fun c => c = '/')).reverse.dropWhile (fun c => c = '/')).reverse)

/-- Split a character list on a separator character (model of Python
str.split with a one-character separator). -/
def splitChar (c : Char) : List Char → List (List Char)
  | [] => [[]]
  | x :: xs =>
      if x = c then [] :: splitChar c xs
      else
        match splitChar c xs with
        | [] => [[x]]
        | y :: ys => (x :: y) :: ys

/-- String-level split on one character (model of Python str.split). -/
def splitString (c : Char) (s : String) : List String :=
  (splitChar c s.data).map String.mk

/-- Join strings with a one-character separator (model of Python join used
to undo a split beyond the first separator). -/
def joinWith (c : Char) : List String → String
  | [] => ""
  | [x] => x
  | x :: xs => x ++ String.singleton c ++ joinWith c xs

/-- Embedded from figma_api.py: path_parts as computed by
parsed.path.strip followed by split on the slash character. -/
def splitPathSegments (path : String) : List String :=
  splitString '/' (stripSlashes path)

/-- Model of one query-string field split on the first equals sign (Python
name_value.split with maxsplit one inside urllib parse_qsl). -/
def fieldPair (f : String) : String × String :=
  match splitString '=' f with
  | [] => (f, "")
  | [n] => (n, "")
  | n :: rest => (n, joinWith '=' rest)

/-- Model of urllib parse_qsl with default options: split the query on the
ampersand, drop empty fields and fields with a blank value (keep_blank_values
false).  Percent-decoding is elided (identity on the inputs of interest). -/
def qsPairs (qs : String) : List (String × String) :=
  (splitString '&' qs).filterMap (fun f =>
    if f = "" then none
    else
      match fieldPair f with
      | (n, v) => if v = "" then none else some (n, v))

/-- Grouping step of urllib parse_qs: values are collected per name in first
occurrence order. -/
def addParam (g : List (String × List String)) (n v : String) : List (String × List String) :=
  match g with
  | [] => [(n, [v])]
  | (n0, vs) :: rest =>
      if n0 = n then (n0, vs ++ [v]) :: rest else (n0, vs) :: addParam rest n v

/-- Model of urllib parse_qs: mapping from parameter name to its list of
values in occurrence order. -/
def parseQs (qs : String) : List (String × List String) :=
  (qsPairs qs).foldl (fun g p => addParam g p.1 p.2) []

/-- Replace every dash by a colon (the URL uses dashes, the API colons). -/
def replaceDashColon (s : String) : String :=
  String.mk (s.data.map (fun c => if c = '-' then ':' else c))

/-- Embedded from figma_api.py parse_figma_url: the node-id extraction,
taking the first node-id query value and replacing every dash by a colon. -/
def nodeIdOf (query : String) : Option String :=
  match lookupA (parseQs query) "node-id" with
  | some (v :: _) => some (replaceDashColon v)
  | _ => none

/-- Embedded from figma_api.py: parse_figma_url over the path and query
components of the URL.  Raising ValueError is modelled as Except.error; the
original message interpolates the URL, elided here. -/
def parse_figma_url (path : String) (query : String) :
    Except String (String × Option String) :=
  match splitPathSegments path with
  | p0 :: p1 :: _ =>
      if p0 = "file" ∨ p0 = "design" then Except.ok (p1, nodeIdOf query)
      else Except.error "Invalid Figma URL"
  | _ => Except.error "Invalid Figma URL"

/-- Result of a completed subprocess (models Python CompletedProcess with
captured text output). -/
structure SubprocResult where
  returncode : Int
  stdout : String
  stderr : String
  deriving DecidableEq

/-- Embedded from jira_cli.py run_jira: the command list, appending the raw
flag when requested and not already present. -/
def buildJiraCmd (args : List String) (raw : Bool) : List String :=
  let cmd := "jira" :: args
  if raw ∧ ¬ args.contains "--raw" then cmd ++ ["--raw"] else cmd

/-- Python or on strings: the left operand unless it is empty. -/
def pyOr (a b : String) : String := if a = "" then b else a

/-- One hexadecimal digit, lowercase (helper for JSON control escapes). -/
def hexDigit (n : Nat) : Char :=
  if n < 10 then Char.ofNat (48 + n) else Char.ofNat (87 + n)

/-- JSON escaping of one character as json.dumps performs it for the ASCII
range (non-ASCII uXXXX escaping of ensure_ascii is elided). -/
def jsonEscapeChar (c : Char) : String :=
  if c = '"' then "\\\""
  else if c = '\\' then "\\\\"
  else if c = '\n' then "\\n"
  else if c = '\r' then "\\r"
  else if c = '\t' then "\\t"
  else if c.toNat < 32 then
    "\\u00" ++ String.mk [hexDigit (c.toNat / 16), hexDigit (c.toNat % 16)]
  else String.singleton c

/-- JSON escaping of a string body. -/
def jsonEscape (s : String) : String :=
  s.data.foldl (fun acc c => acc ++ jsonEscapeChar c) ""

/-- The output of json.dumps applied to a dictionary with the single key
error and a string value. -/
def jsonErrorObj (msg : String) : String :=
  "\x7b\"error\": \"" ++ jsonEscape msg ++ "\"\x7d"

/-- Python str.strip with no arguments: drop leading and trailing
whitespace characters. -/
def pyStrip (s : String) : String :=
  String.mk
    (((s.data.dropWhile Char.isWhitespace).reverse.dropWhile Char.isWhitespace).reverse)

/-- Embedded from jira_cli.py: run_jira, with the subprocess modelled as a
caller-supplied function from the command list to its completed result. -/
def run_jira (args : List String) (raw : Bool) (subproc : List String → SubprocResult) :
    String :=
  let result := subproc (buildJiraCmd args raw)
  if result.returncode ≠ 0 then
    jsonErrorObj (pyStrip (pyOr result.stderr (pyOr result.stdout "Unknown error")))
  else result.stdout

/-- Rewrite the record of every index entry (payload-only rewrites in the
apply phase have this shape). -/
def mapIdx (f : Record → Record) (idx : List (String × Record)) : List (String × Record) :=
  idx.map (fun kr => (kr.1, f kr.2))

/-- Specification-side recursive form of the authoritative selection: first
entry with maximal created_at, together with its position. -/
def firstMaxE : List (String × Record) → Option (Nat × String × Record)
  | [] => none
  | (rid, r) :: rest =>
      match firstMaxE rest with
      | none => some (0, rid, r)
      | some (j, mrid, m) =>
          if r.created_at < m.created_at then some (j + 1, mrid, m) else some (0, rid, r)

/-- Specification-side view of one key's global-index list: for each replica
in iteration order, its Content Key Index entry for the key, if any. -/
def gLookupSpec (rs : List Replica) (k : String) : List (String × Record) :=
  rs.filterMap (fun rep =>
    (lookupA (buildIndex rep.records) k).map (fun r => (rep.replica_id, r)))

/-- Same view over raw (replica id, index) pairs. -/
def collectG (l : List (String × List (String × Record))) (k : String) :
    List (String × Record) :=
  l.filterMap (fun p => (lookupA p.2 k).map (fun r => (p.1, r)))

/-- The per-replica payload rewrite performed by applying a plan. -/
def planRewrite (plan : List PendingUpdate) (rid : String) : Record → Record :=
  applyUpdates (plan.filter (fun u => u.replica_id = rid))

/-- The global-index level rewrite corresponding to applying a plan. -/
def mapG (F : String → Record → Record)
    (g : List (String × List (String × Record))) :
    List (String × List (String × Record)) :=
  g.map (fun kl => (kl.1, kl.2.map (fun p => (p.1, F p.1 p.2))))

/-- First value of a query parameter in field occurrence order
(specification-side scan used to characterize the grouped parse). -/
def firstValue : List (String × String) → String → Option String
  | [], _ => none
  | (n0, v) :: rest, n => if n0 = n then some v else firstValue rest n

/-- Values of one parameter in occurrence order. -/
def valuesSpec (pairs : List (String × String)) (n : String) : List String :=
  pairs.filterMap (fun p => if p.1 = n then some p.2 else none)

/-- The three-replica example of the design document: R1 holds k1 at t=10
with payload A, R2 at t=20 with payload B, R3 at t=5 with payload C. -/
def exampleR1 : Replica :=
  ⟨"R1", "Replica 1", [⟨"k1", "a1", some [("value", "A")], 10⟩]⟩

/-- Second example replica. -/
def exampleR2 : Replica :=
  ⟨"R2", "Replica 2", [⟨"k1", "b1", some [("value", "B")], 20⟩]⟩

/-- Third example replica. -/
def exampleR3 : Replica :=
  ⟨"R3", "Replica 3", [⟨"k1", "c1", some [("value", "C")], 5⟩]⟩

/-- The example replica set. -/
def exampleReplicas : List Replica := [exampleR1, exampleR2, exampleR3]

/-!
Lemma development.  First: association lists and the Content Key Index.
-/

/-- Specification-side selection: the first record of a list attaining the
maximal created_at, i.e. last-write-wins with first-seen tie-break. -/
def mergeBest : Option Record → Option Record → Option Record
  | none, o => o
  | some r, none => some r
  | some r, some m => if r.created_at < m.created_at then some m else some r

/-- First record with maximal created_at (earlier records win ties). -/
def firstMax : List Record → Option Record
  | [] => none
  | r :: rest => mergeBest (some r) (firstMax rest)

theorem lookupA_eq_none {α : Type} (l : List (String × α)) (k : String) :
    lookupA l k = none ↔ k ∉ l.map Prod.fst := by
  induction l with
  | nil => simp [lookupA]
  | cons p rest ih =>
    obtain ⟨k0, v⟩ := p
    by_cases h : k0 = k <;> simp [lookupA, h, ih, Ne.symm]

theorem lookupA_mem {α : Type} {l : List (String × α)} {k : String} {v : α}
    (h : lookupA l k = some v) : (k, v) ∈ l := by
  induction l with
  | nil => simp [lookupA] at h
  | cons p rest ih =>
    obtain ⟨k0, v0⟩ := p
    by_cases hk : k0 = k
    · subst hk
      simp [lookupA] at h
      simp [h]
    · simp [lookupA, hk] at h
      simp [ih h]

theorem mem_lookupA {α : Type} {l : List (String × α)} {k : String} {v : α}
    (hnd : (l.map Prod.fst).Nodup) (h : (k, v) ∈ l) : lookupA l k = some v := by
  induction l with
  | nil => simp at h
  | cons p rest ih =>
    obtain ⟨k0, v0⟩ := p
    simp only [List.map_cons, List.nodup_cons] at hnd
    rcases List.mem_cons.mp h with h1 | h1
    · have hk : k = k0 := congrArg Prod.fst h1
      have hv : v = v0 := congrArg Prod.snd h1
      simp [lookupA, hk, hv]
    · have hk : k0 ≠ k := by
        intro he
        exact hnd.1 (he ▸ (List.mem_map.mpr ⟨(k, v), h1, rfl⟩))
      simp [lookupA, hk, ih hnd.2 h1]

theorem mergeBest_assoc (a b c : Option Record) :
    mergeBest (mergeBest a b) c = mergeBest a (mergeBest b c) := by
  rcases a with _ | ra
  · rfl
  rcases b with _ | rb
  · rfl
  rcases c with _ | rc
  · by_cases h : ra.created_at < rb.created_at <;> simp [mergeBest, h]
  by_cases h1 : ra.created_at < rb.created_at <;>
    by_cases h2 : rb.created_at < rc.created_at <;>
    simp [mergeBest, h1, h2] <;>
    first
      | rfl
      | (split_ifs <;> first | rfl | omega)
      | (intro h3; exfalso; omega)

theorem lookupA_upsertIndex (idx : List (String × Record)) (r : Record) (k : String) :
    lookupA (upsertIndex idx r) k =
      if r.identity_key = k then mergeBest (lookupA idx k) (some r) else lookupA idx k := by
  induction idx with
  | nil =>
    by_cases h : r.identity_key = k <;> simp [upsertIndex, lookupA, mergeBest, h]
  | cons p rest ih =>
    obtain ⟨k0, r0⟩ := p
    by_cases h0 : k0 = r.identity_key
    · by_cases hk : k0 = k
      · have h2 : r.identity_key = k := by rw [← h0]; exact hk
        by_cases hc : r0.created_at < r.created_at <;>
          simp [upsertIndex, h0, hc, lookupA, hk, h2, mergeBest]
      · have h2 : ¬ (r.identity_key = k) := by
          intro he
          exact hk (by rw [h0]; exact he)
        by_cases hc : r0.created_at < r.created_at <;>
          simp [upsertIndex, h0, hc, lookupA, hk, h2]
    · by_cases hk : k0 = k
      · have h2 : ¬ (r.identity_key = k) := by
          intro he
          exact h0 (by rw [hk, he])
        rw [upsertIndex, if_neg h0]
        simp [lookupA, hk, h2]
      · rw [upsertIndex, if_neg h0]
        simp [lookupA, hk, ih]

theorem lookupA_foldl_upsert (l : List Record) (idx : List (String × Record)) (k : String) :
    lookupA (l.foldl upsertIndex idx) k =
      mergeBest (lookupA idx k) (firstMax (l.filter (fun r => r.identity_key = k))) := by
  induction l generalizing idx with
  | nil =>
    rcases h : lookupA idx k with _ | v <;> simp [firstMax, mergeBest, h]
  | cons r l ih =>
    rw [List.foldl_cons, ih, lookupA_upsertIndex]
    by_cases hk : r.identity_key = k
    · rw [if_pos hk, List.filter_cons_of_pos (by simpa using hk), firstMax,
        mergeBest_assoc]
    · rw [if_neg hk, List.filter_cons_of_neg (by simpa using hk)]

theorem buildIndex_lookup (l : List Record) (k : String) :
    lookupA (buildIndex l) k = firstMax (l.filter (fun r => r.identity_key = k)) := by
  have h := lookupA_foldl_upsert l [] k
  rw [buildIndex]
  rw [h]
  rcases firstMax (l.filter (fun r => r.identity_key = k)) with _ | v <;>
    simp [lookupA, mergeBest]

theorem firstMax_cons_ne_none (a : Record) (t : List Record) : firstMax (a :: t) ≠ none := by
  rw [firstMax]
  rcases firstMax t with _ | m
  · simp [mergeBest]
  · simp only [mergeBest]
    split <;> simp

theorem firstMax_spec (l : List Record) :
    ∀ r, firstMax l = some r → r ∈ l ∧ ∀ x ∈ l, x.created_at ≤ r.created_at := by
  induction l with
  | nil => intro r h; simp [firstMax] at h
  | cons a rest ih =>
    intro r h
    rw [firstMax] at h
    rcases hr : firstMax rest with _ | m
    · have hrest : rest = [] := by
        cases rest with
        | nil => rfl
        | cons b t => exact absurd hr (firstMax_cons_ne_none b t)
      subst hrest
      rw [hr] at h
      simp only [mergeBest, Option.some.injEq] at h
      subst h
      refine ⟨by simp, ?_⟩
      intro x hx
      simp at hx
      subst hx
      exact Nat.le_refl _
    · rw [hr] at h
      simp only [mergeBest] at h
      obtain ⟨hm, hmax⟩ := ih m hr
      split at h
      · next hlt =>
          have hmr : m = r := by injection h
          subst hmr
          refine ⟨List.mem_cons_of_mem _ hm, ?_⟩
          intro x hx
          rcases List.mem_cons.mp hx with h1 | h1
          · subst h1; omega
          · exact hmax x h1
      · next hge =>
          have har : a = r := by injection h
          subst har
          refine ⟨List.mem_cons_self _ _, ?_⟩
          intro x hx
          rcases List.mem_cons.mp hx with h1 | h1
          · subst h1; exact Nat.le_refl _
          · have := hmax x h1
            omega

theorem firstMax_mem {l : List Record} {r : Record} (h : firstMax l = some r) : r ∈ l :=
  ((firstMax_spec l r) h).1

theorem firstMax_max {l : List Record} {r : Record} (h : firstMax l = some r) :
    ∀ x ∈ l, x.created_at ≤ r.created_at :=
  ((firstMax_spec l r) h).2

theorem firstMax_eq_none {l : List Record} : firstMax l = none ↔ l = [] := by
  cases l with
  | nil => simp [firstMax]
  | cons a t =>
    constructor
    · intro h
      exact absurd h (firstMax_cons_ne_none a t)
    · intro h
      simp at h

theorem firstMax_first {l : List Record} {r : Record} (h : firstMax l = some r) :
    ∃ i : Nat, l[i]? = some r ∧
      ∀ j : Nat, j < i → ∀ x : Record, l[j]? = some x → x.created_at < r.created_at := by
  induction l generalizing r with
  | nil => simp [firstMax] at h
  | cons a rest ih =>
    rw [firstMax] at h
    rcases hr : firstMax rest with _ | m
    · rw [hr] at h
      simp only [mergeBest, Option.some.injEq] at h
      subst h
      exact ⟨0, by simp, by omega⟩
    · rw [hr] at h
      simp only [mergeBest] at h
      split at h
      · next hlt =>
          have hmr : m = r := by injection h
          subst hmr
          obtain ⟨i, hi, hfirst⟩ := ih hr
          refine ⟨i + 1, by simpa using hi, ?_⟩
          intro j hj x hx
          cases j with
          | zero =>
            simp at hx
            subst hx
            exact hlt
          | succ j' =>
            simp at hx
            exact hfirst j' (by omega) x hx
      · next hge =>
          have har : a = r := by injection h
          subst har
          exact ⟨0, by simp, by omega⟩

/-!
Keys of the Content Key Index, membership facts and the map-commutation
lemma used for the idempotence proof.
-/

theorem keys_upsertIndex (idx : List (String × Record)) (r : Record) :
    (upsertIndex idx r).map Prod.fst =
      if r.identity_key ∈ idx.map Prod.fst then idx.map Prod.fst
      else idx.map Prod.fst ++ [r.identity_key] := by
  induction idx with
  | nil => simp [upsertIndex]
  | cons p rest ih =>
    obtain ⟨k0, r0⟩ := p
    by_cases h0 : k0 = r.identity_key
    · by_cases hc : r0.created_at < r.created_at <;>
        simp [upsertIndex, h0, hc]
    · rw [upsertIndex, if_neg h0]
      by_cases hm : r.identity_key ∈ rest.map Prod.fst
      · simp [hm, ih, Ne.symm h0]
      · simp [hm, ih, Ne.symm h0]

theorem nodup_keys_foldl_upsert (l : List Record) (idx : List (String × Record))
    (h : (idx.map Prod.fst).Nodup) : ((l.foldl upsertIndex idx).map Prod.fst).Nodup := by
  induction l generalizing idx with
  | nil => simpa using h
  | cons r l ih =>
    rw [List.foldl_cons]
    refine ih (upsertIndex idx r) ?_
    rw [keys_upsertIndex]
    by_cases hm : r.identity_key ∈ idx.map Prod.fst
    · simpa [hm] using h
    · rw [if_neg hm]
      simpa [List.nodup_append, hm] using h

theorem nodup_keys_buildIndex (l : List Record) :
    ((buildIndex l).map Prod.fst).Nodup :=
  nodup_keys_foldl_upsert l [] (by simp)

theorem buildIndex_mem {l : List Record} {k : String} {r : Record}
    (h : (k, r) ∈ buildIndex l) : r ∈ l ∧ r.identity_key = k := by
  have hl : lookupA (buildIndex l) k = some r :=
    mem_lookupA (nodup_keys_buildIndex l) h
  rw [buildIndex_lookup] at hl
  have hm := firstMax_mem hl
  rw [List.mem_filter] at hm
  exact ⟨hm.1, by simpa using hm.2⟩

theorem buildIndex_max {l : List Record} {k : String} {r : Record}
    (h : lookupA (buildIndex l) k = some r) :
    ∀ x ∈ l, x.identity_key = k → x.created_at ≤ r.created_at := by
  rw [buildIndex_lookup] at h
  intro x hx hk
  exact firstMax_max h x (List.mem_filter.mpr ⟨hx, by simpa using hk⟩)

theorem buildIndex_complete {l : List Record} {k : String}
    (h : lookupA (buildIndex l) k = none) : ∀ x ∈ l, x.identity_key ≠ k := by
  rw [buildIndex_lookup] at h
  intro x hx hk
  have : l.filter (fun r => r.identity_key = k) = [] := firstMax_eq_none.mp h
  have hmem : x ∈ l.filter (fun r => r.identity_key = k) :=
    List.mem_filter.mpr ⟨hx, by simpa using hk⟩
  rw [this] at hmem
  simp at hmem

theorem upsertIndex_map (f : Record → Record)
    (hid : ∀ r, (f r).identity_key = r.identity_key)
    (hca : ∀ r, (f r).created_at = r.created_at)
    (idx : List (String × Record)) (r : Record) :
    upsertIndex (mapIdx f idx) (f r) = mapIdx f (upsertIndex idx r) := by
  induction idx with
  | nil => simp [upsertIndex, mapIdx, hid]
  | cons p rest ih =>
    obtain ⟨k0, r0⟩ := p
    by_cases h0 : k0 = r.identity_key
    · by_cases hc : r0.created_at < r.created_at <;>
        simp [upsertIndex, mapIdx, hid, hca, h0, hc]
    · simp only [mapIdx, List.map_cons] at ih ⊢
      rw [upsertIndex, if_neg (by rw [hid]; exact h0), upsertIndex, if_neg h0]
      simp [ih]

theorem buildIndex_map (f : Record → Record)
    (hid : ∀ r, (f r).identity_key = r.identity_key)
    (hca : ∀ r, (f r).created_at = r.created_at)
    (l : List Record) : buildIndex (l.map f) = mapIdx f (buildIndex l) := by
  suffices h : ∀ idx, (l.map f).foldl upsertIndex (mapIdx f idx) =
      mapIdx f (l.foldl upsertIndex idx) by
    have := h []
    simpa [buildIndex, mapIdx] using this
  induction l with
  | nil => intro idx; simp
  | cons r l ih =>
    intro idx
    simp only [List.map_cons, List.foldl_cons]
    rw [upsertIndex_map f hid hca, ih]

/-!
Authoritative selection: equational characterization of pickAuth.
-/

theorem pickAuthAux_eq (rest : List (String × Record)) :
    ∀ (best : Nat × String × Record) (i : Nat),
      pickAuthAux best i rest =
        match firstMaxE rest with
        | none => best
        | some (j, mrid, m) =>
            if best.2.2.created_at < m.created_at then (i + j, mrid, m) else best := by
  induction rest with
  | nil => intro best i; simp [pickAuthAux, firstMaxE]
  | cons p rest ih =>
    intro best i
    obtain ⟨rid, r⟩ := p
    rw [pickAuthAux]
    rcases hm : firstMaxE rest with _ | jm
    · rw [ih, ih, hm]
      rw [firstMaxE, hm]
      by_cases hb : best.2.2.created_at < r.created_at <;> simp [hb]
    · obtain ⟨j, mrid, m⟩ := jm
      rw [ih, ih, hm]
      rw [firstMaxE, hm]
      by_cases hb : best.2.2.created_at < r.created_at
      · by_cases hr : r.created_at < m.created_at
        · have : best.2.2.created_at < m.created_at := by omega
          simp [hb, hr, this]
          omega
        · simp [hb, hr]
      · by_cases hr : r.created_at < m.created_at
        · by_cases hbm : best.2.2.created_at < m.created_at
          · simp [hb, hr, hbm]
            omega
          · simp [hb, hr, hbm]
        · have : ¬ best.2.2.created_at < r.created_at := hb
          simp [hb, hr]
          intro hc
          omega

theorem pickAuth_eq (l : List (String × Record)) : pickAuth l = firstMaxE l := by
  cases l with
  | nil => rfl
  | cons p rest =>
    obtain ⟨rid, r⟩ := p
    rw [pickAuth, pickAuthAux_eq]
    rw [firstMaxE]
    rcases hm : firstMaxE rest with _ | jm
    · simp
    · obtain ⟨j, mrid, m⟩ := jm
      by_cases hr : r.created_at < m.created_at <;> simp [hr]
      omega

theorem firstMaxE_eq_none {l : List (String × Record)} : firstMaxE l = none ↔ l = [] := by
  cases l with
  | nil => simp [firstMaxE]
  | cons p rest =>
    obtain ⟨rid, r⟩ := p
    constructor
    · intro h
      rw [firstMaxE] at h
      rcases hm : firstMaxE rest with _ | jm
      · rw [hm] at h
        exact absurd h (by simp)
      · obtain ⟨j, mrid, m⟩ := jm
        rw [hm] at h
        have h2 : (if r.created_at < m.created_at then some (j + 1, mrid, m)
            else some (0, rid, r)) = (none : Option (Nat × String × Record)) := h
        by_cases hc : r.created_at < m.created_at
        · rw [if_pos hc] at h2
          exact absurd h2 (by simp)
        · rw [if_neg hc] at h2
          exact absurd h2 (by simp)
    · intro h
      simp at h

theorem firstMaxE_get {l : List (String × Record)} {ai : Nat} {arid : String} {arec : Record}
    (h : firstMaxE l = some (ai, arid, arec)) : l[ai]? = some (arid, arec) := by
  induction l generalizing ai arid arec with
  | nil => simp [firstMaxE] at h
  | cons p rest ih =>
    obtain ⟨rid, r⟩ := p
    rw [firstMaxE] at h
    rcases hm : firstMaxE rest with _ | jm
    · rw [hm] at h
      have h2 : (some (0, rid, r) : Option (Nat × String × Record)) = some (ai, arid, arec) := h
      simp only [Option.some.injEq, Prod.mk.injEq] at h2
      obtain ⟨h3, h4, h5⟩ := h2
      subst h3
      subst h4
      subst h5
      simp
    · obtain ⟨j, mrid, m⟩ := jm
      rw [hm] at h
      have h2 : (if r.created_at < m.created_at then some (j + 1, mrid, m)
          else some (0, rid, r)) = some (ai, arid, arec) := h
      by_cases hc : r.created_at < m.created_at
      · rw [if_pos hc] at h2
        simp only [Option.some.injEq, Prod.mk.injEq] at h2
        obtain ⟨h3, h4, h5⟩ := h2
        subst h3
        subst h4
        subst h5
        simpa using ih hm
      · rw [if_neg hc] at h2
        simp only [Option.some.injEq, Prod.mk.injEq] at h2
        obtain ⟨h3, h4, h5⟩ := h2
        subst h3
        subst h4
        subst h5
        simp

theorem firstMaxE_max {l : List (String × Record)} {ai : Nat} {arid : String} {arec : Record}
    (h : firstMaxE l = some (ai, arid, arec)) :
    ∀ p ∈ l, p.2.created_at ≤ arec.created_at := by
  induction l generalizing ai arid arec with
  | nil => simp
  | cons p rest ih =>
    obtain ⟨rid, r⟩ := p
    intro q hq
    rw [firstMaxE] at h
    rcases hm : firstMaxE rest with _ | jm
    · rw [hm] at h
      have h2 : (some (0, rid, r) : Option (Nat × String × Record)) = some (ai, arid, arec) := h
      simp only [Option.some.injEq, Prod.mk.injEq] at h2
      obtain ⟨h3, h4, h5⟩ := h2
      subst h3
      subst h4
      subst h5
      have hrest : rest = [] := firstMaxE_eq_none.mp hm
      subst hrest
      simp at hq
      subst hq
      exact Nat.le_refl _
    · obtain ⟨j, mrid, m⟩ := jm
      rw [hm] at h
      have hmax := ih hm
      have h2 : (if r.created_at < m.created_at then some (j + 1, mrid, m)
          else some (0, rid, r)) = some (ai, arid, arec) := h
      by_cases hc : r.created_at < m.created_at
      · rw [if_pos hc] at h2
        simp only [Option.some.injEq, Prod.mk.injEq] at h2
        obtain ⟨h3, h4, h5⟩ := h2
        subst h3
        subst h4
        subst h5
        rcases List.mem_cons.mp hq with h1 | h1
        · subst h1
          simp only []
          omega
        · exact hmax q h1
      · rw [if_neg hc] at h2
        simp only [Option.some.injEq, Prod.mk.injEq] at h2
        obtain ⟨h3, h4, h5⟩ := h2
        subst h3
        subst h4
        subst h5
        rcases List.mem_cons.mp hq with h1 | h1
        · subst h1
          exact Nat.le_refl _
        · have := hmax q h1
          omega

theorem firstMaxE_first {l : List (String × Record)} {ai : Nat} {arid : String} {arec : Record}
    (h : firstMaxE l = some (ai, arid, arec)) :
    ∀ j : Nat, j < ai → ∀ p : String × Record, l[j]? = some p →
      p.2.created_at < arec.created_at := by
  induction l generalizing ai arid arec with
  | nil => simp [firstMaxE] at h
  | cons q rest ih =>
    obtain ⟨rid, r⟩ := q
    intro j hj p hp
    rw [firstMaxE] at h
    rcases hm : firstMaxE rest with _ | jm
    · rw [hm] at h
      have h2 : (some (0, rid, r) : Option (Nat × String × Record)) = some (ai, arid, arec) := h
      simp only [Option.some.injEq, Prod.mk.injEq] at h2
      obtain ⟨h3, h4, h5⟩ := h2
      omega
    · obtain ⟨j0, mrid, m⟩ := jm
      rw [hm] at h
      have h2 : (if r.created_at < m.created_at then some (j0 + 1, mrid, m)
          else some (0, rid, r)) = some (ai, arid, arec) := h
      by_cases hc : r.created_at < m.created_at
      · rw [if_pos hc] at h2
        simp only [Option.some.injEq, Prod.mk.injEq] at h2
        obtain ⟨h3, h4, h5⟩ := h2
        subst h3
        subst h4
        subst h5
        cases j with
        | zero =>
          simp at hp
          subst hp
          exact hc
        | succ j2 =>
          simp at hp
          exact ih hm j2 (by omega) p hp
      · rw [if_neg hc] at h2
        simp only [Option.some.injEq, Prod.mk.injEq] at h2
        obtain ⟨h3, h4, h5⟩ := h2
        omega

theorem firstMaxE_map (F : String → Record → Record)
    (hca : ∀ rid r, (F rid r).created_at = r.created_at) (l : List (String × Record)) :
    firstMaxE (l.map (fun p => (p.1, F p.1 p.2))) =
      (firstMaxE l).map (fun t => (t.1, t.2.1, F t.2.1 t.2.2)) := by
  induction l with
  | nil => simp [firstMaxE]
  | cons p rest ih =>
    obtain ⟨rid, r⟩ := p
    simp only [List.map_cons]
    rw [firstMaxE, ih, firstMaxE]
    rcases hm : firstMaxE rest with _ | jm
    · simp
    · obtain ⟨j, mrid, m⟩ := jm
      simp only [Option.map_some']
      rw [hca, hca]
      by_cases hc : r.created_at < m.created_at <;> simp [hc]

theorem detectOthers_mem (k arid : String) (arec : Record) (ai : Nat)
    (l : List (String × Record)) (i : Nat) (u : PendingUpdate) :
    u ∈ detectOthers k arid arec ai i l ↔
      ∃ (j : Nat) (rid : String) (rec : Record), l[j]? = some (rid, rec) ∧
        i + j ≠ ai ∧ normalizePayload rec.payload ≠ normalizePayload arec.payload ∧
        u = ⟨rid, rec.record_id, k, rec.payload, arec.payload, arid⟩ := by
  induction l generalizing i with
  | nil => simp [detectOthers]
  | cons p rest ih =>
    obtain ⟨rid0, rec0⟩ := p
    rw [detectOthers]
    by_cases hc : i ≠ ai ∧ normalizePayload rec0.payload ≠ normalizePayload arec.payload
    · rw [if_pos hc]
      constructor
      · intro hu
        rcases List.mem_cons.mp hu with h1 | h1
        · exact ⟨0, rid0, rec0, by simp, by simpa using hc.1, hc.2, h1⟩
        · obtain ⟨j, rid, rec, hj, hne, hdiff, hequ⟩ := (ih (i + 1)).mp h1
          exact ⟨j + 1, rid, rec, by simpa using hj, by omega, hdiff, hequ⟩
      · rintro ⟨j, rid, rec, hj, hne, hdiff, hequ⟩
        cases j with
        | zero =>
          simp at hj
          rw [List.mem_cons]
          left
          rw [hequ, hj.1, hj.2]
        | succ j2 =>
          simp at hj
          rw [List.mem_cons]
          right
          exact (ih (i + 1)).mpr ⟨j2, rid, rec, hj, by omega, hdiff, hequ⟩
    · rw [if_neg hc]
      rw [ih]
      constructor
      · rintro ⟨j, rid, rec, hj, hne, hdiff, hequ⟩
        exact ⟨j + 1, rid, rec, by simpa using hj, by omega, hdiff, hequ⟩
      · rintro ⟨j, rid, rec, hj, hne, hdiff, hequ⟩
        cases j with
        | zero =>
          simp at hj
          exfalso
          rcases not_and_or.mp hc with h2 | h2
          · simp at h2
            omega
          · simp at h2
            rw [hj.2] at h2
            exact hdiff h2
        | succ j2 =>
          simp at hj
          exact ⟨j2, rid, rec, hj, by omega, hdiff, hequ⟩

theorem detectOthers_nil (k arid : String) (arec : Record) (ai : Nat)
    (l : List (String × Record)) (i : Nat)
    (h : ∀ (j : Nat) (rid : String) (rec : Record), l[j]? = some (rid, rec) → i + j ≠ ai →
      normalizePayload rec.payload = normalizePayload arec.payload) :
    detectOthers k arid arec ai i l = [] := by
  rcases he : detectOthers k arid arec ai i l with _ | ⟨u, rest⟩
  · rfl
  · exfalso
    have hu : u ∈ detectOthers k arid arec ai i l := by rw [he]; simp
    obtain ⟨j, rid, rec, hj, hne, hdiff, _⟩ := (detectOthers_mem k arid arec ai l i u).mp hu
    exact hdiff (h j rid rec hj hne)

theorem detectAll_mem (g : List (String × List (String × Record))) (u : PendingUpdate) :
    u ∈ detectAll g ↔ ∃ (k : String) (lst : List (String × Record)),
      (k, lst) ∈ g ∧ u ∈ detectKey k lst := by
  induction g with
  | nil => simp [detectAll]
  | cons p rest ih =>
    obtain ⟨k0, lst0⟩ := p
    rw [detectAll, List.mem_append, ih]
    constructor
    · rintro (h1 | ⟨k, lst, hm, hu⟩)
      · exact ⟨k0, lst0, by simp, h1⟩
      · exact ⟨k, lst, List.mem_cons_of_mem _ hm, hu⟩
    · rintro ⟨k, lst, hm, hu⟩
      rcases List.mem_cons.mp hm with h1 | h1
      · left
        have hk : k = k0 := congrArg Prod.fst h1
        have hl : lst = lst0 := congrArg Prod.snd h1
        rw [← hk, ← hl]
        exact hu
      · right
        exact ⟨k, lst, h1, hu⟩

theorem detectKey_subset_detectAll {g : List (String × List (String × Record))}
    {k : String} {lst : List (String × Record)} (h : (k, lst) ∈ g) :
    ∀ u ∈ detectKey k lst, u ∈ detectAll g := by
  intro u hu
  exact (detectAll_mem g u).mpr ⟨k, lst, h, hu⟩

theorem detectKey_identity (k : String) (lst : List (String × Record)) :
    ∀ u ∈ detectKey k lst, u.identity_key = k := by
  intro u hu
  rw [detectKey] at hu
  split at hu
  · rcases hp : pickAuth lst with _ | t
    · rw [hp] at hu
      simp at hu
    · obtain ⟨ai, arid, arec⟩ := t
      rw [hp] at hu
      obtain ⟨j, rid, rec, _, _, _, hequ⟩ :=
        (detectOthers_mem k arid arec ai lst 0 u).mp hu
      rw [hequ]
  · simp at hu

/-!
Global Reconciliation Index: lookup characterization, key nodup, and
commutation with payload-level rewrites.
-/

theorem lookupA_addEntry (g : List (String × List (String × Record)))
    (rid k k' : String) (r : Record) :
    lookupA (addEntry g rid k r) k' =
      if k = k' then some ((lookupA g k).getD [] ++ [(rid, r)]) else lookupA g k' := by
  induction g with
  | nil =>
    by_cases h : k = k' <;> simp [addEntry, lookupA, h]
  | cons p rest ih =>
    obtain ⟨k0, lst⟩ := p
    by_cases h0 : k0 = k
    · subst h0
      by_cases h' : k0 = k' <;> simp [addEntry, lookupA, h']
    · rw [addEntry, if_neg h0]
      by_cases h' : k0 = k'
      · subst h'
        rw [lookupA, if_pos rfl]
        rw [if_neg (fun he => h0 he.symm), lookupA, if_pos rfl]
      · simp [lookupA, h', h0, ih]

theorem keys_addEntry (g : List (String × List (String × Record)))
    (rid k : String) (r : Record) :
    (addEntry g rid k r).map Prod.fst =
      if k ∈ g.map Prod.fst then g.map Prod.fst else g.map Prod.fst ++ [k] := by
  induction g with
  | nil => simp [addEntry]
  | cons p rest ih =>
    obtain ⟨k0, lst⟩ := p
    by_cases h0 : k0 = k
    · simp [addEntry, h0]
    · rw [addEntry, if_neg h0]
      by_cases hm : k ∈ rest.map Prod.fst
      · simp [hm, ih, Ne.symm h0]
      · simp [hm, ih, Ne.symm h0]

theorem lookupA_addReplicaIndex (idx : List (String × Record))
    (hnd : (idx.map Prod.fst).Nodup) (g : List (String × List (String × Record)))
    (rid k : String) :
    lookupA (addReplicaIndex g rid idx) k =
      match lookupA idx k with
      | none => lookupA g k
      | some r => some ((lookupA g k).getD [] ++ [(rid, r)]) := by
  induction idx generalizing g with
  | nil => simp [addReplicaIndex, lookupA]
  | cons p rest ih =>
    obtain ⟨k0, r0⟩ := p
    simp only [List.map_cons, List.nodup_cons] at hnd
    have hstep : addReplicaIndex g rid ((k0, r0) :: rest) =
        addReplicaIndex (addEntry g rid k0 r0) rid rest := by
      simp [addReplicaIndex]
    rw [hstep, ih hnd.2]
    by_cases hk : k0 = k
    · subst hk
      have hnone : lookupA rest k0 = none := (lookupA_eq_none rest k0).mpr hnd.1
      rw [hnone]
      rw [lookupA, if_pos rfl]
      rw [lookupA_addEntry, if_pos rfl]
    · have hcons : lookupA ((k0, r0) :: rest) k = lookupA rest k := by
        rw [lookupA, if_neg hk]
      rw [hcons]
      have haddE : lookupA (addEntry g rid k0 r0) k = lookupA g k := by
        rw [lookupA_addEntry, if_neg hk]
      rcases hr : lookupA rest k with _ | r <;> simp [haddE]

theorem keys_addReplicaIndex_sup (idx : List (String × Record))
    (g : List (String × List (String × Record))) (rid : String) :
    ∀ k, k ∈ (addReplicaIndex g rid idx).map Prod.fst ↔
      k ∈ g.map Prod.fst ∨ k ∈ idx.map Prod.fst := by
  induction idx generalizing g with
  | nil => simp [addReplicaIndex]
  | cons p rest ih =>
    obtain ⟨k0, r0⟩ := p
    intro k
    have hstep : addReplicaIndex g rid ((k0, r0) :: rest) =
        addReplicaIndex (addEntry g rid k0 r0) rid rest := by
      simp [addReplicaIndex]
    rw [hstep, ih]
    rw [keys_addEntry]
    by_cases hm : k0 ∈ g.map Prod.fst
    · simp only [if_pos hm, List.map_cons, List.mem_cons]
      constructor
      · rintro (h | h)
        · exact Or.inl h
        · exact Or.inr (Or.inr h)
      · rintro (h | h | h)
        · exact Or.inl h
        · exact Or.inl (h ▸ hm)
        · exact Or.inr h
    · simp only [if_neg hm, List.map_cons, List.mem_cons, List.mem_append]
      constructor
      · rintro ((h | h) | h)
        · exact Or.inl h
        · exact Or.inr (Or.inl (by simpa using h))
        · exact Or.inr (Or.inr h)
      · rintro (h | h | h)
        · exact Or.inl (Or.inl h)
        · exact Or.inl (Or.inr (by simpa using h))
        · exact Or.inr h

theorem nodup_keys_addReplicaIndex (idx : List (String × Record))
    (g : List (String × List (String × Record))) (rid : String)
    (h : (g.map Prod.fst).Nodup) :
    ((addReplicaIndex g rid idx).map Prod.fst).Nodup := by
  induction idx generalizing g with
  | nil => simpa [addReplicaIndex] using h
  | cons p rest ih =>
    obtain ⟨k0, r0⟩ := p
    have hstep : addReplicaIndex g rid ((k0, r0) :: rest) =
        addReplicaIndex (addEntry g rid k0 r0) rid rest := by
      simp [addReplicaIndex]
    rw [hstep]
    refine ih (addEntry g rid k0 r0) ?_
    rw [keys_addEntry]
    by_cases hm : k0 ∈ g.map Prod.fst
    · simpa [hm] using h
    · rw [if_neg hm]
      simpa [List.nodup_append, hm] using h

theorem lookupA_globalIndexAux_gen (l : List (String × List (String × Record)))
    (hnd : ∀ p ∈ l, (p.2.map Prod.fst).Nodup) (k : String) :
    ∀ g, lookupA (l.foldl (fun g p => addReplicaIndex g p.1 p.2) g) k =
      if collectG l k = [] then lookupA g k
      else some ((lookupA g k).getD [] ++ collectG l k) := by
  induction l with
  | nil => intro g; simp [collectG]
  | cons p rest ih =>
    intro g
    obtain ⟨rid, idx⟩ := p
    have hnd1 : (idx.map Prod.fst).Nodup := hnd (rid, idx) (by simp)
    have hnd2 : ∀ q ∈ rest, (q.2.map Prod.fst).Nodup := fun q hq =>
      hnd q (List.mem_cons_of_mem _ hq)
    rw [List.foldl_cons, ih hnd2]
    have hcoll : collectG ((rid, idx) :: rest) k =
        match lookupA idx k with
        | none => collectG rest k
        | some r => (rid, r) :: collectG rest k := by
      rcases hr : lookupA idx k with _ | r <;> simp [collectG, hr]
    have haRI := lookupA_addReplicaIndex idx hnd1 g rid k
    rcases hr : lookupA idx k with _ | r
    · rw [hr] at hcoll haRI
      rw [hcoll, haRI]
    · rw [hr] at hcoll haRI
      rw [hcoll, haRI]
      rcases hc : collectG rest k with _ | ⟨q, c⟩
      · simp
      · simp

theorem lookupA_globalIndexOf (rs : List Replica) (k : String) :
    lookupA (globalIndexOf rs) k =
      if gLookupSpec rs k = [] then none else some (gLookupSpec rs k) := by
  have hnd : ∀ p ∈ rs.map (fun rep => (rep.replica_id, buildIndex rep.records)),
      (p.2.map Prod.fst).Nodup := by
    intro p hp
    rw [List.mem_map] at hp
    obtain ⟨rep, _, hrep⟩ := hp
    rw [← hrep]
    exact nodup_keys_buildIndex rep.records
  have h := lookupA_globalIndexAux_gen _ hnd k []
  have hcoll : collectG (rs.map (fun rep => (rep.replica_id, buildIndex rep.records))) k =
      gLookupSpec rs k := by
    rw [collectG, gLookupSpec, List.filterMap_map]
    rfl
  rw [globalIndexOf, globalIndexAux]
  rw [h, hcoll]
  rcases hg : gLookupSpec rs k with _ | ⟨q, c⟩ <;> simp [lookupA]

theorem nodup_keys_globalIndexOf (rs : List Replica) :
    ((globalIndexOf rs).map Prod.fst).Nodup := by
  rw [globalIndexOf, globalIndexAux]
  suffices h : ∀ (l : List (String × List (String × Record)))
      (g : List (String × List (String × Record))), (g.map Prod.fst).Nodup →
      ((l.foldl (fun g p => addReplicaIndex g p.1 p.2) g).map Prod.fst).Nodup by
    exact h _ [] (by simp)
  intro l
  induction l with
  | nil => intro g hg; simpa using hg
  | cons p rest ih =>
    intro g hg
    rw [List.foldl_cons]
    exact ih _ (nodup_keys_addReplicaIndex p.2 g p.1 hg)

theorem mem_globalIndexOf_iff (rs : List Replica) (k : String)
    (lst : List (String × Record)) :
    (k, lst) ∈ globalIndexOf rs ↔ lookupA (globalIndexOf rs) k = some lst := by
  constructor
  · intro h
    exact mem_lookupA (nodup_keys_globalIndexOf rs) h
  · intro h
    exact lookupA_mem h

theorem mem_globalIndexOf_spec {rs : List Replica} {k : String}
    {lst : List (String × Record)} (h : (k, lst) ∈ globalIndexOf rs) :
    lst = gLookupSpec rs k := by
  have h2 := (mem_globalIndexOf_iff rs k lst).mp h
  rw [lookupA_globalIndexOf] at h2
  split at h2
  · simp at h2
  · simp at h2
    exact h2.symm

theorem gLookupSpec_mem {rs : List Replica} {k : String} {rid : String} {rec : Record}
    (h : (rid, rec) ∈ gLookupSpec rs k) :
    ∃ rep ∈ rs, rep.replica_id = rid ∧ lookupA (buildIndex rep.records) k = some rec := by
  rw [gLookupSpec, List.mem_filterMap] at h
  obtain ⟨rep, hrep, hf⟩ := h
  rcases hr : lookupA (buildIndex rep.records) k with _ | r
  · rw [hr] at hf
    simp at hf
  · rw [hr] at hf
    simp at hf
    refine ⟨rep, hrep, ?_, by rw [hr, hf.2]⟩
    rw [← hf.1]

theorem gLookupSpec_rid_mem {rs : List Replica} {k : String} {x : String}
    (h : x ∈ (gLookupSpec rs k).map Prod.fst) : x ∈ rs.map Replica.replica_id := by
  rw [List.mem_map] at h
  obtain ⟨⟨rid, rec⟩, hp, hx⟩ := h
  obtain ⟨rep, hrep, hid, _⟩ := gLookupSpec_mem hp
  rw [List.mem_map]
  refine ⟨rep, hrep, ?_⟩
  rw [hid]
  exact hx

theorem gLookupSpec_rids_nodup (rs : List Replica) (k : String)
    (h : (rs.map Replica.replica_id).Nodup) :
    ((gLookupSpec rs k).map Prod.fst).Nodup := by
  induction rs with
  | nil => simp [gLookupSpec]
  | cons rep rs ih =>
    simp only [List.map_cons, List.nodup_cons] at h
    have hcons : gLookupSpec (rep :: rs) k =
        match lookupA (buildIndex rep.records) k with
        | none => gLookupSpec rs k
        | some r => (rep.replica_id, r) :: gLookupSpec rs k := by
      rcases hr : lookupA (buildIndex rep.records) k with _ | r <;> simp [gLookupSpec, hr]
    rw [hcons]
    rcases hr : lookupA (buildIndex rep.records) k with _ | r
    · exact ih h.2
    · simp only [List.map_cons, List.nodup_cons]
      refine ⟨fun hm => h.1 (gLookupSpec_rid_mem hm), ih h.2⟩

/-!
Apply phase: record-level facts and commutation of the index pipeline with
the payload-only rewrites that applying a plan performs.
-/

theorem applyUpdate1_identity_key (u : PendingUpdate) (r : Record) :
    (applyUpdate1 u r).identity_key = r.identity_key := by
  rw [applyUpdate1]
  split <;> rfl

theorem applyUpdate1_record_id (u : PendingUpdate) (r : Record) :
    (applyUpdate1 u r).record_id = r.record_id := by
  rw [applyUpdate1]
  split <;> rfl

theorem applyUpdate1_created_at (u : PendingUpdate) (r : Record) :
    (applyUpdate1 u r).created_at = r.created_at := by
  rw [applyUpdate1]
  split <;> rfl

theorem applyUpdates_cons (u : PendingUpdate) (ups : List PendingUpdate) (r : Record) :
    applyUpdates (u :: ups) r = applyUpdates ups (applyUpdate1 u r) := by
  rw [applyUpdates, applyUpdates, List.foldl_cons]

theorem applyUpdates_identity_key (ups : List PendingUpdate) (r : Record) :
    (applyUpdates ups r).identity_key = r.identity_key := by
  induction ups generalizing r with
  | nil => rfl
  | cons u ups ih =>
    rw [applyUpdates_cons, ih, applyUpdate1_identity_key]

theorem applyUpdates_record_id (ups : List PendingUpdate) (r : Record) :
    (applyUpdates ups r).record_id = r.record_id := by
  induction ups generalizing r with
  | nil => rfl
  | cons u ups ih =>
    rw [applyUpdates_cons, ih, applyUpdate1_record_id]

theorem applyUpdates_created_at (ups : List PendingUpdate) (r : Record) :
    (applyUpdates ups r).created_at = r.created_at := by
  induction ups generalizing r with
  | nil => rfl
  | cons u ups ih =>
    rw [applyUpdates_cons, ih, applyUpdate1_created_at]

theorem applyUpdates_not_targeted (ups : List PendingUpdate) (r : Record)
    (h : ∀ u ∈ ups, u.record_id ≠ r.record_id) : applyUpdates ups r = r := by
  induction ups with
  | nil => rfl
  | cons u ups ih =>
    rw [applyUpdates_cons]
    have h1 : applyUpdate1 u r = r := by
      rw [applyUpdate1, if_neg]
      intro he
      exact h u (by simp) he.symm
    rw [h1]
    exact ih (fun u2 hu2 => h u2 (List.mem_cons_of_mem _ hu2))

theorem applyUpdates_const_target (ups : List PendingUpdate) (r : Record)
    (v : Option Payload)
    (hall : ∀ u ∈ ups, u.record_id = r.record_id → u.new_payload = v)
    (hex : ∃ u ∈ ups, u.record_id = r.record_id) :
    applyUpdates ups r = { r with payload := v } := by
  induction ups generalizing r with
  | nil =>
    obtain ⟨u, hu, _⟩ := hex
    simp at hu
  | cons u ups ih =>
    rw [applyUpdates_cons]
    by_cases ht : u.record_id = r.record_id
    · have h1 : applyUpdate1 u r = { r with payload := v } := by
        rw [applyUpdate1, if_pos ht.symm, hall u (by simp) ht]
      rw [h1]
      by_cases hex2 : ∃ u2 ∈ ups, u2.record_id = r.record_id
      · obtain ⟨u2, hu2, ht2⟩ := hex2
        have := ih { r with payload := v }
          (fun u3 hu3 ht3 => hall u3 (List.mem_cons_of_mem _ hu3) ht3)
          ⟨u2, hu2, ht2⟩
        simpa using this
      · refine applyUpdates_not_targeted ups _ ?_
        intro u2 hu2 he
        exact hex2 ⟨u2, hu2, he⟩
    · have h1 : applyUpdate1 u r = r := by
        rw [applyUpdate1, if_neg (fun he => ht he.symm)]
      rw [h1]
      obtain ⟨u2, hu2, ht2⟩ := hex
      rcases List.mem_cons.mp hu2 with he | he
      · exact absurd (he ▸ ht2) ht
      · exact ih r (fun u3 hu3 ht3 => hall u3 (List.mem_cons_of_mem _ hu3) ht3) ⟨u2, he, ht2⟩

theorem foldl_upsertRecords (ups : List PendingUpdate) (records : List Record) :
    ups.foldl upsertRecords records = records.map (applyUpdates ups) := by
  induction ups generalizing records with
  | nil =>
    simp only [List.foldl_nil]
    have h2 : List.map (applyUpdates []) records = records := by
      have h3 := List.map_congr_left (l := records) (f := applyUpdates []) (g := id)
        (fun r _ => rfl)
      simpa using h3
    rw [h2]
  | cons u ups ih =>
    rw [List.foldl_cons]
    rw [upsertRecords, ih, List.map_map]
    apply List.map_congr_left
    intro r _
    rw [Function.comp_apply, applyUpdates_cons]

theorem applyPlan_records (rs : List Replica) (plan : List PendingUpdate) :
    applyPlan rs plan = rs.map (fun rep =>
      { rep with records := rep.records.map (planRewrite plan rep.replica_id) }) := by
  rw [applyPlan]
  apply List.map_congr_left
  intro rep _
  rw [applyToReplica, foldl_upsertRecords]
  rfl

theorem addEntry_mapG (F : String → Record → Record)
    (g : List (String × List (String × Record))) (rid k : String) (r : Record) :
    addEntry (mapG F g) rid k (F rid r) = mapG F (addEntry g rid k r) := by
  induction g with
  | nil => simp [addEntry, mapG]
  | cons p rest ih =>
    obtain ⟨k0, lst⟩ := p
    by_cases h0 : k0 = k
    · simp [addEntry, mapG, h0]
    · simp only [mapG, List.map_cons] at ih ⊢
      rw [addEntry, if_neg h0, addEntry, if_neg h0]
      simp [ih]

theorem addReplicaIndex_mapG (F : String → Record → Record)
    (idx : List (String × Record)) (rid : String) :
    ∀ g, addReplicaIndex (mapG F g) rid (mapIdx (F rid) idx) =
      mapG F (addReplicaIndex g rid idx) := by
  induction idx with
  | nil => intro g; simp [addReplicaIndex, mapIdx]
  | cons kr rest ih =>
    intro g
    obtain ⟨k0, r0⟩ := kr
    have hstep : addReplicaIndex g rid ((k0, r0) :: rest) =
        addReplicaIndex (addEntry g rid k0 r0) rid rest := by
      simp [addReplicaIndex]
    have hstep2 : addReplicaIndex (mapG F g) rid (mapIdx (F rid) ((k0, r0) :: rest)) =
        addReplicaIndex (addEntry (mapG F g) rid k0 (F rid r0)) rid
          (mapIdx (F rid) rest) := by
      simp [addReplicaIndex, mapIdx]
    rw [hstep, hstep2, addEntry_mapG]
    exact ih _

theorem globalIndexAux_mapG (F : String → Record → Record)
    (l : List (String × List (String × Record))) :
    globalIndexAux (l.map (fun p => (p.1, mapIdx (F p.1) p.2))) =
      mapG F (globalIndexAux l) := by
  suffices h : ∀ g, (l.map (fun p => (p.1, mapIdx (F p.1) p.2))).foldl
      (fun g p => addReplicaIndex g p.1 p.2) (mapG F g) =
      mapG F (l.foldl (fun g p => addReplicaIndex g p.1 p.2) g) by
    have h2 := h []
    simpa [globalIndexAux, mapG] using h2
  induction l with
  | nil => intro g; simp
  | cons p rest ih =>
    intro g
    obtain ⟨rid, idx⟩ := p
    simp only [List.map_cons, List.foldl_cons]
    rw [addReplicaIndex_mapG F idx rid, ih]

theorem planRewrite_identity_key (plan : List PendingUpdate) (rid : String) (r : Record) :
    (planRewrite plan rid r).identity_key = r.identity_key :=
  applyUpdates_identity_key _ r

theorem planRewrite_record_id (plan : List PendingUpdate) (rid : String) (r : Record) :
    (planRewrite plan rid r).record_id = r.record_id :=
  applyUpdates_record_id _ r

theorem planRewrite_created_at (plan : List PendingUpdate) (rid : String) (r : Record) :
    (planRewrite plan rid r).created_at = r.created_at :=
  applyUpdates_created_at _ r

theorem globalIndexOf_applyPlan (rs : List Replica) (plan : List PendingUpdate) :
    globalIndexOf (applyPlan rs plan) = mapG (planRewrite plan) (globalIndexOf rs) := by
  rw [applyPlan_records, globalIndexOf, globalIndexOf, List.map_map]
  have hstep : (fun rep => (rep.replica_id, buildIndex rep.records)) ∘
      (fun rep => { rep with records := rep.records.map (planRewrite plan rep.replica_id) }) =
      (fun p => (p.1, mapIdx (planRewrite plan p.1) p.2)) ∘
      (fun rep : Replica => (rep.replica_id, buildIndex rep.records)) := by
    funext rep
    simp only [Function.comp_apply]
    rw [buildIndex_map (planRewrite plan rep.replica_id)
      (planRewrite_identity_key plan rep.replica_id)
      (planRewrite_created_at plan rep.replica_id)]
  rw [hstep, ← List.map_map]
  exact globalIndexAux_mapG (planRewrite plan) _

theorem pickAuth_map (F : String → Record → Record)
    (hca : ∀ rid r, (F rid r).created_at = r.created_at) (l : List (String × Record)) :
    pickAuth (l.map (fun p => (p.1, F p.1 p.2))) =
      (pickAuth l).map (fun t => (t.1, t.2.1, F t.2.1 t.2.2)) := by
  rw [pickAuth_eq, pickAuth_eq]
  exact firstMaxE_map F hca l

/-!
Provenance of plan updates, and uniqueness of the record an update targets.
-/

theorem plan_provenance {rs : List Replica} {u : PendingUpdate}
    (hu : u ∈ detectAll (globalIndexOf rs)) :
    ∃ (k : String) (lst : List (String × Record)) (ai : Nat) (arid : String)
      (arec : Record) (j : Nat) (rid : String) (rec : Record),
      lookupA (globalIndexOf rs) k = some lst ∧ 2 ≤ lst.length ∧
      pickAuth lst = some (ai, arid, arec) ∧ lst[j]? = some (rid, rec) ∧ j ≠ ai ∧
      normalizePayload rec.payload ≠ normalizePayload arec.payload ∧
      u = ⟨rid, rec.record_id, k, rec.payload, arec.payload, arid⟩ := by
  obtain ⟨k, lst, hmem, hk⟩ := (detectAll_mem _ u).mp hu
  have hlook := (mem_globalIndexOf_iff rs k lst).mp hmem
  rw [detectKey] at hk
  split at hk
  · next hlen =>
      rcases hp : pickAuth lst with _ | t
      · rw [hp] at hk
        simp at hk
      · obtain ⟨ai, arid, arec⟩ := t
        rw [hp] at hk
        obtain ⟨j, rid, rec, hj, hne, hdiff, hequ⟩ :=
          (detectOthers_mem k arid arec ai lst 0 u).mp hk
        exact ⟨k, lst, ai, arid, arec, j, rid, rec, hlook, hlen, hp, hj,
          by simpa using hne, hdiff, hequ⟩
  · simp at hk

theorem entry_record {rs : List Replica} {k : String} {lst : List (String × Record)}
    {j : Nat} {rid : String} {rec : Record}
    (hlook : lookupA (globalIndexOf rs) k = some lst) (hj : lst[j]? = some (rid, rec)) :
    ∃ rep ∈ rs, rep.replica_id = rid ∧ rec ∈ rep.records ∧ rec.identity_key = k ∧
      lookupA (buildIndex rep.records) k = some rec := by
  have hspec : lst = gLookupSpec rs k :=
    mem_globalIndexOf_spec (lookupA_mem hlook)
  have hmem : (rid, rec) ∈ gLookupSpec rs k := by
    rw [← hspec]
    exact List.getElem?_mem hj
  obtain ⟨rep, hrep, hid, hidx⟩ := gLookupSpec_mem hmem
  have hrm : (k, rec) ∈ buildIndex rep.records := lookupA_mem hidx
  obtain ⟨hrecmem, hkey⟩ := buildIndex_mem hrm
  exact ⟨rep, hrep, hid, hrecmem, hkey, hidx⟩

theorem plan_target_shape {rs : List Replica}
    (hwf : wellFormedReplicas rs)
    {k : String} {lst : List (String × Record)} {ai j : Nat} {arid rid : String}
    {arec rec : Record}
    (hlook : lookupA (globalIndexOf rs) k = some lst)
    (hp : pickAuth lst = some (ai, arid, arec))
    (hj : lst[j]? = some (rid, rec)) :
    ∀ u ∈ detectAll (globalIndexOf rs), u.replica_id = rid → u.record_id = rec.record_id →
      j ≠ ai ∧ normalizePayload rec.payload ≠ normalizePayload arec.payload ∧
      u = ⟨rid, rec.record_id, k, rec.payload, arec.payload, arid⟩ := by
  intro u hu hurid hurec
  obtain ⟨k2, lst2, ai2, arid2, arec2, j2, rid2, rec2, hlook2, hlen2, hp2, hj2, hne2,
    hdiff2, hequ2⟩ := plan_provenance hu
  have hrid2 : rid2 = rid := by rw [hequ2] at hurid; exact hurid
  have hrecid2 : rec2.record_id = rec.record_id := by rw [hequ2] at hurec; exact hurec
  obtain ⟨rep, hrep, hrepid, hrecmem, hkey, _⟩ := entry_record hlook hj
  obtain ⟨rep2, hrep2, hrepid2, hrecmem2, hkey2, _⟩ := entry_record hlook2 hj2
  have hrepeq : rep2 = rep := by
    refine List.inj_on_of_nodup_map hwf.1 hrep2 hrep ?_
    rw [hrepid, hrepid2, hrid2]
  have hreceq : rec2 = rec := by
    refine List.inj_on_of_nodup_map (hwf.2 rep hrep) ?_ hrecmem hrecid2
    rw [hrepeq] at hrecmem2
    exact hrecmem2
  have hkeq : k2 = k := by
    rw [← hkey2, hreceq, hkey]
  have hlsteq : lst2 = lst := by
    rw [hkeq] at hlook2
    rw [hlook] at hlook2
    exact (Option.some.injEq _ _ ▸ hlook2).symm
  rw [hlsteq] at hp2 hj2
  rw [hp] at hp2
  have hai2 : ai2 = ai := (Prod.mk.injEq _ _ _ _ ▸ (Option.some.injEq _ _ ▸ hp2)).1.symm
  have harid2 : arid2 = arid := by
    have h3 := (Option.some.injEq _ _ ▸ hp2)
    have h4 := congrArg (fun t => t.2.1) h3
    exact h4.symm
  have harec2 : arec2 = arec := by
    have h3 := (Option.some.injEq _ _ ▸ hp2)
    have h4 := congrArg (fun t => t.2.2) h3
    exact h4.symm
  have hjeq : j2 = j := by
    have hnodup : ((gLookupSpec rs k).map Prod.fst).Nodup :=
      gLookupSpec_rids_nodup rs k hwf.1
    have hspec : lst = gLookupSpec rs k := mem_globalIndexOf_spec (lookupA_mem hlook)
    rw [← hspec] at hnodup
    have hm1 : (lst.map Prod.fst)[j]? = some rid := by
      rw [List.getElem?_map Prod.fst lst j, hj]
      rfl
    have hm2 : (lst.map Prod.fst)[j2]? = some rid := by
      rw [List.getElem?_map Prod.fst lst j2, hj2]
      simp [hrid2]
    have hlt : j2 < (lst.map Prod.fst).length := (List.getElem?_eq_some_iff.mp hm2).1
    exact List.getElem?_inj hlt hnodup (hm2.trans hm1.symm)
  refine ⟨by omega, ?_, ?_⟩
  · have : rec2.payload = rec.payload := by rw [hreceq]
    rw [← this, ← harec2]
    exact hdiff2
  · rw [hequ2, hrid2, hrecid2, hkeq, hreceq, harec2, harid2]

theorem detectAll_mapG_nil (F : String → Record → Record)
    (g : List (String × List (String × Record)))
    (h : ∀ p ∈ g, detectKey p.1 (p.2.map (fun q => (q.1, F q.1 q.2))) = []) :
    detectAll (mapG F g) = [] := by
  induction g with
  | nil => rfl
  | cons p rest ih =>
    have hcons : mapG F (p :: rest) =
        (p.1, p.2.map (fun q => (q.1, F q.1 q.2))) :: mapG F rest := by
      simp [mapG]
    rw [hcons, detectAll, h p (by simp), List.nil_append]
    exact ih (fun q hq => h q (List.mem_cons_of_mem _ hq))

theorem detectAll_after_apply (rs : List Replica) (hwf : wellFormedReplicas rs) :
    detectAll (globalIndexOf (applyPlan rs (detectAll (globalIndexOf rs)))) = [] := by
  rw [globalIndexOf_applyPlan]
  apply detectAll_mapG_nil
  rintro ⟨k, lst⟩ hmem
  simp only []
  have hlook := (mem_globalIndexOf_iff rs k lst).mp hmem
  by_cases hlen : 2 ≤ lst.length
  · rcases hp : pickAuth lst with _ | t
    · exfalso
      rw [pickAuth_eq] at hp
      have hnil := firstMaxE_eq_none.mp hp
      rw [hnil] at hlen
      simp at hlen
    · obtain ⟨ai, arid, arec⟩ := t
      have hauth_get : lst[ai]? = some (arid, arec) :=
        firstMaxE_get ((pickAuth_eq lst).symm.trans hp)
      have hFa : planRewrite (detectAll (globalIndexOf rs)) arid arec = arec := by
        show applyUpdates
          ((detectAll (globalIndexOf rs)).filter (fun u => u.replica_id = arid)) arec = arec
        apply applyUpdates_not_targeted
        intro u hu hrecid
        rw [List.mem_filter] at hu
        have hshape := plan_target_shape hwf hlook hp hauth_get u hu.1
          (by simpa using hu.2) hrecid
        exact hshape.1 rfl
      have hp2 : pickAuth (lst.map (fun q =>
          (q.1, planRewrite (detectAll (globalIndexOf rs)) q.1 q.2))) =
          some (ai, arid, planRewrite (detectAll (globalIndexOf rs)) arid arec) := by
        rw [pickAuth_map (planRewrite (detectAll (globalIndexOf rs)))
          (planRewrite_created_at (detectAll (globalIndexOf rs))) lst, hp]
        rfl
      rw [detectKey, if_pos (by rw [List.length_map]; exact hlen), hp2]
      apply detectOthers_nil
      intro j rid rec2 hj2 hne
      have hj0 : ∃ rec, lst[j]? = some (rid, rec) ∧
          rec2 = planRewrite (detectAll (globalIndexOf rs)) rid rec := by
        rw [List.getElem?_map] at hj2
        rcases hlj : lst[j]? with _ | p
        · rw [hlj] at hj2
          simp at hj2
        · obtain ⟨rid0, rec0⟩ := p
          rw [hlj] at hj2
          simp at hj2
          refine ⟨rec0, ?_, ?_⟩
          · rw [← hj2.1]
          · rw [← hj2.1]
            exact hj2.2.symm
      obtain ⟨rec, hj, hrec2⟩ := hj0
      rw [hrec2, hFa]
      by_cases hdif : normalizePayload rec.payload = normalizePayload arec.payload
      · have hFr : planRewrite (detectAll (globalIndexOf rs)) rid rec = rec := by
          show applyUpdates
            ((detectAll (globalIndexOf rs)).filter (fun u => u.replica_id = rid)) rec = rec
          apply applyUpdates_not_targeted
          intro u hu hrecid
          rw [List.mem_filter] at hu
          have hshape := plan_target_shape hwf hlook hp hj u hu.1
            (by simpa using hu.2) hrecid
          exact hshape.2.1 hdif
        rw [hFr]
        exact hdif
      · have hu0 : (⟨rid, rec.record_id, k, rec.payload, arec.payload, arid⟩ :
            PendingUpdate) ∈ detectAll (globalIndexOf rs) := by
          apply detectKey_subset_detectAll hmem
          rw [detectKey, if_pos hlen, hp]
          apply (detectOthers_mem k arid arec ai lst 0 _).mpr
          exact ⟨j, rid, rec, hj, by omega, hdif, rfl⟩
        have hFr : planRewrite (detectAll (globalIndexOf rs)) rid rec =
            { rec with payload := arec.payload } := by
          show applyUpdates
            ((detectAll (globalIndexOf rs)).filter (fun u => u.replica_id = rid)) rec =
            { rec with payload := arec.payload }
          apply applyUpdates_const_target
          · intro u hu hrecid
            rw [List.mem_filter] at hu
            have hshape := plan_target_shape hwf hlook hp hj u hu.1
              (by simpa using hu.2) hrecid
            rw [hshape.2.2]
          · refine ⟨⟨rid, rec.record_id, k, rec.payload, arec.payload, arid⟩, ?_, rfl⟩
            rw [List.mem_filter]
            exact ⟨hu0, by simp⟩
        rw [hFr]
  · rw [detectKey, if_neg (by rw [List.length_map]; exact hlen)]

/-!
Record Normalizer facts and query-string parsing facts.
-/

theorem normalizeAll_aux (raws : List RawRecord) :
    ∀ acc : List Record × Nat,
      (raws.foldl
        (fun acc raw =>
          match normalizeRecord raw with
          | Except.ok r => (acc.1 ++ [r], acc.2)
          | Except.error _ => (acc.1, acc.2 + 1)) acc).1 =
        acc.1 ++ raws.filterMap (fun r => (normalizeRecord r).toOption) ∧
      (raws.foldl
        (fun acc raw =>
          match normalizeRecord raw with
          | Except.ok r => (acc.1 ++ [r], acc.2)
          | Except.error _ => (acc.1, acc.2 + 1)) acc).2 =
        acc.2 + (raws.filter (fun r => r.identity = none)).length := by
  induction raws with
  | nil => intro acc; simp
  | cons raw raws ih =>
    intro acc
    rw [List.foldl_cons]
    rcases hid : raw.identity with _ | idv
    · have herr : normalizeRecord raw = Except.error MalformedRecordError.missingIdentity := by
        rw [normalizeRecord, hid]
      rw [herr]
      obtain ⟨ih1, ih2⟩ := ih (acc.1, acc.2 + 1)
      refine ⟨?_, ?_⟩
      · rw [ih1]
        simp [herr, Except.toOption]
      · rw [ih2]
        simp only [List.filter_cons]
        rw [if_pos (by simp [hid])]
        simp
        omega
    · have hok : normalizeRecord raw = Except.ok
          ⟨canonicalIdentityKey idv, raw.record_id, raw.payload, raw.created_at⟩ := by
        rw [normalizeRecord, hid]
      rw [hok]
      obtain ⟨ih1, ih2⟩ := ih
        (acc.1 ++ [⟨canonicalIdentityKey idv, raw.record_id, raw.payload, raw.created_at⟩],
          acc.2)
      refine ⟨?_, ?_⟩
      · rw [ih1]
        simp [hok, Except.toOption]
      · rw [ih2]
        simp only [List.filter_cons]
        rw [if_neg (by simp [hid])]

theorem lookupA_addParam (g : List (String × List String)) (n0 v n : String) :
    lookupA (addParam g n0 v) n =
      if n0 = n then some ((lookupA g n0).getD [] ++ [v]) else lookupA g n := by
  induction g with
  | nil =>
    by_cases h : n0 = n <;> simp [addParam, lookupA, h]
  | cons p rest ih =>
    obtain ⟨m, vs⟩ := p
    by_cases hm : m = n0
    · subst hm
      by_cases h : m = n <;> simp [addParam, lookupA, h]
    · rw [addParam, if_neg hm]
      by_cases h : m = n
      · subst h
        rw [lookupA, if_pos rfl]
        rw [if_neg (fun he => hm he.symm), lookupA, if_pos rfl]
      · simp [lookupA, h, hm, ih]

theorem lookupA_foldl_addParam (pairs : List (String × String)) (n : String) :
    ∀ g, lookupA (pairs.foldl (fun g p => addParam g p.1 p.2) g) n =
      if valuesSpec pairs n = [] then lookupA g n
      else some ((lookupA g n).getD [] ++ valuesSpec pairs n) := by
  induction pairs with
  | nil => intro g; simp [valuesSpec]
  | cons p rest ih =>
    intro g
    obtain ⟨n0, v⟩ := p
    rw [List.foldl_cons, ih]
    by_cases h : n0 = n
    · subst h
      have hvals : valuesSpec ((n0, v) :: rest) n0 = v :: valuesSpec rest n0 := by
        simp [valuesSpec]
      rw [hvals]
      have hadd : lookupA (addParam g n0 v) n0 = some ((lookupA g n0).getD [] ++ [v]) := by
        rw [lookupA_addParam, if_pos rfl]
      rcases hr : valuesSpec rest n0 with _ | ⟨w, ws⟩
      · simp [hadd]
      · simp [hadd]
    · have hvals : valuesSpec ((n0, v) :: rest) n = valuesSpec rest n := by
        simp [valuesSpec, h]
      rw [hvals]
      have hadd : lookupA (addParam g n0 v) n = lookupA g n := by
        rw [lookupA_addParam, if_neg h]
      rw [hadd]

theorem lookupA_parseQs (qs : String) (n : String) :
    lookupA (parseQs qs) n =
      if valuesSpec (qsPairs qs) n = [] then none
      else some (valuesSpec (qsPairs qs) n) := by
  rw [parseQs]
  rw [lookupA_foldl_addParam]
  rcases h : valuesSpec (qsPairs qs) n with _ | ⟨v, vs⟩ <;> simp [lookupA]

theorem valuesSpec_head (pairs : List (String × String)) (n : String) :
    (valuesSpec pairs n).head? = firstValue pairs n := by
  induction pairs with
  | nil => simp [valuesSpec, firstValue]
  | cons p rest ih =>
    obtain ⟨n0, v⟩ := p
    by_cases h : n0 = n
    · subst h
      simp [valuesSpec, firstValue]
    · rw [firstValue, if_neg h]
      have : valuesSpec ((n0, v) :: rest) n = valuesSpec rest n := by
        simp [valuesSpec, h]
      rw [this, ih]

theorem nodeIdOf_firstValue (query : String) :
    nodeIdOf query =
      (firstValue (qsPairs query) "node-id").map replaceDashColon := by
  rw [nodeIdOf]
  rw [lookupA_parseQs]
  rcases h : valuesSpec (qsPairs query) "node-id" with _ | ⟨v, vs⟩
  · have hfv : firstValue (qsPairs query) "node-id" = none := by
      rw [← valuesSpec_head, h]
      rfl
    rw [hfv]
    simp
  · have hfv : firstValue (qsPairs query) "node-id" = some v := by
      rw [← valuesSpec_head, h]
      rfl
    rw [hfv]
    simp

/-!
The claims.
-/

/-- C1: for every identity key held in at least two replicas, the Divergence
Detector selects as authoritative the entry with the maximum created_at in
the key's global-index list, ties broken by the first replica in iteration
order, and emits a Pending Update carrying the authoritative payload for
exactly the other entries whose normalized payload differs; in particular on
the replica set R1=(k1,t=10,A), R2=(k1,t=20,B), R3=(k1,t=5,C) the plan sets
R1 and R3 to B from source R2 and leaves R2 untouched. -/
theorem C1_divergence_detector (k : String) (lst : List (String × Record))
    (hlen : 2 ≤ lst.length) :
    (∃ (ai : Nat) (arid : String) (arec : Record),
      pickAuth lst = some (ai, arid, arec) ∧
      lst[ai]? = some (arid, arec) ∧
      (∀ p ∈ lst, p.2.created_at ≤ arec.created_at) ∧
      (∀ j : Nat, j < ai → ∀ p : String × Record, lst[j]? = some p →
        p.2.created_at < arec.created_at) ∧
      (∀ u : PendingUpdate, u ∈ detectKey k lst ↔
        ∃ (j : Nat) (rid : String) (rec : Record), lst[j]? = some (rid, rec) ∧
          j ≠ ai ∧ normalizePayload rec.payload ≠ normalizePayload arec.payload ∧
          u = ⟨rid, rec.record_id, k, rec.payload, arec.payload, arid⟩)) ∧
    planByReplica exampleReplicas =
      [("R1", [⟨"R1", "a1", "k1", some [("value", "A")], some [("value", "B")], "R2"⟩]),
       ("R2", []),
       ("R3", [⟨"R3", "c1", "k1", some [("value", "C")], some [("value", "B")], "R2"⟩])] := by
  constructor
  · rcases hpa : pickAuth lst with _ | t
    · exfalso
      rw [pickAuth_eq] at hpa
      have hnil := firstMaxE_eq_none.mp hpa
      rw [hnil] at hlen
      simp at hlen
    · obtain ⟨ai, arid, arec⟩ := t
      have hE : firstMaxE lst = some (ai, arid, arec) := (pickAuth_eq lst).symm.trans hpa
      refine ⟨ai, arid, arec, rfl, firstMaxE_get hE, firstMaxE_max hE,
        firstMaxE_first hE, ?_⟩
      intro u
      rw [detectKey, if_pos hlen, hpa]
      simpa using detectOthers_mem k arid arec ai lst 0 u
  · rfl

/-- C1 witness: the general part instantiated on the example key list. -/
theorem C1_divergence_detector_witness :
    ∃ (ai : Nat) (arid : String) (arec : Record),
      pickAuth [("R1", (⟨"k1", "a1", some [("value", "A")], 10⟩ : Record)),
                ("R2", (⟨"k1", "b1", some [("value", "B")], 20⟩ : Record))] =
        some (ai, arid, arec) ∧
      [("R1", (⟨"k1", "a1", some [("value", "A")], 10⟩ : Record)),
       ("R2", (⟨"k1", "b1", some [("value", "B")], 20⟩ : Record))][ai]? =
        some (arid, arec) ∧
      (∀ p ∈ [("R1", (⟨"k1", "a1", some [("value", "A")], 10⟩ : Record)),
              ("R2", (⟨"k1", "b1", some [("value", "B")], 20⟩ : Record))],
        p.2.created_at ≤ arec.created_at) ∧
      (∀ j : Nat, j < ai → ∀ p : String × Record,
        [("R1", (⟨"k1", "a1", some [("value", "A")], 10⟩ : Record)),
         ("R2", (⟨"k1", "b1", some [("value", "B")], 20⟩ : Record))][j]? = some p →
        p.2.created_at < arec.created_at) ∧
      (∀ u : PendingUpdate,
        u ∈ detectKey "k1" [("R1", (⟨"k1", "a1", some [("value", "A")], 10⟩ : Record)),
                            ("R2", (⟨"k1", "b1", some [("value", "B")], 20⟩ : Record))] ↔
        ∃ (j : Nat) (rid : String) (rec : Record),
          [("R1", (⟨"k1", "a1", some [("value", "A")], 10⟩ : Record)),
           ("R2", (⟨"k1", "b1", some [("value", "B")], 20⟩ : Record))][j]? =
            some (rid, rec) ∧
          j ≠ ai ∧ normalizePayload rec.payload ≠ normalizePayload arec.payload ∧
          u = ⟨rid, rec.record_id, "k1", rec.payload, arec.payload, arid⟩) :=
  (C1_divergence_detector "k1"
    [("R1", (⟨"k1", "a1", some [("value", "A")], 10⟩ : Record)),
     ("R2", (⟨"k1", "b1", some [("value", "B")], 20⟩ : Record))] (by decide)).1

/-- C2: reconciliation is idempotent: on a well-formed replica set, after one
pass whose Pending Updates are all applied, a second pass produces zero
Pending Updates for every identity key touched by the first pass. -/
theorem C2_reconciliation_idempotent (rs : List Replica)
    (hwf : wellFormedReplicas rs) (k : String)
    (_htouched : ∃ u ∈ reconcile rs, u.identity_key = k) :
    (reconcile (applyPlan rs (reconcile rs))).filter
      (fun u2 => u2.identity_key = k) = [] := by
  rw [reconcile, reconcile]
  rw [detectAll_after_apply rs hwf]
  rfl

/-- C2 witness: the example replica set is well formed, its first pass
touches k1, and the second pass emits nothing for k1. -/
theorem C2_reconciliation_idempotent_witness :
    (reconcile (applyPlan exampleReplicas (reconcile exampleReplicas))).filter
      (fun u2 => u2.identity_key = "k1") = [] :=
  C2_reconciliation_idempotent exampleReplicas (by decide) "k1" (by decide)

/-- C3: the Content Key Index maps each identity key to at most one record;
the indexed record comes from the input, carries the key, has the maximal
created_at among input records with that key, and is the first such
maximal record in input order. -/
theorem C3_content_key_index (records : List Record) (k : String) :
    ((buildIndex records).map Prod.fst).Nodup ∧
    ∀ rec : Record, lookupA (buildIndex records) k = some rec →
      rec ∈ records ∧ rec.identity_key = k ∧
      (∀ r2 ∈ records, r2.identity_key = k → r2.created_at ≤ rec.created_at) ∧
      ∃ i : Nat, (records.filter (fun r => r.identity_key = k))[i]? = some rec ∧
        ∀ j : Nat, j < i → ∀ r2 : Record,
          (records.filter (fun r => r.identity_key = k))[j]? = some r2 →
          r2.created_at < rec.created_at := by
  refine ⟨nodup_keys_buildIndex records, ?_⟩
  intro rec h
  rw [buildIndex_lookup] at h
  have hmem := firstMax_mem h
  rw [List.mem_filter] at hmem
  refine ⟨hmem.1, by simpa using hmem.2, ?_, ?_⟩
  · intro r2 hr2 hk2
    exact firstMax_max h r2 (List.mem_filter.mpr ⟨hr2, by simpa using hk2⟩)
  · exact firstMax_first h

/-- C3 witness: a two-record tie on created_at keeps the first-seen record. -/
theorem C3_content_key_index_witness :
    ((⟨"k1", "a", some [("v", "1")], 10⟩ : Record) ∈
      [(⟨"k1", "a", some [("v", "1")], 10⟩ : Record),
       (⟨"k1", "b", some [("v", "2")], 10⟩ : Record)]) ∧
    (⟨"k1", "a", some [("v", "1")], 10⟩ : Record).identity_key = "k1" ∧
    (∀ r2 ∈ [(⟨"k1", "a", some [("v", "1")], 10⟩ : Record),
             (⟨"k1", "b", some [("v", "2")], 10⟩ : Record)],
      r2.identity_key = "k1" →
      r2.created_at ≤ (⟨"k1", "a", some [("v", "1")], 10⟩ : Record).created_at) ∧
    ∃ i : Nat,
      ([(⟨"k1", "a", some [("v", "1")], 10⟩ : Record),
        (⟨"k1", "b", some [("v", "2")], 10⟩ : Record)].filter
          (fun r => r.identity_key = "k1"))[i]? =
        some ⟨"k1", "a", some [("v", "1")], 10⟩ ∧
      ∀ j : Nat, j < i → ∀ r2 : Record,
        ([(⟨"k1", "a", some [("v", "1")], 10⟩ : Record),
          (⟨"k1", "b", some [("v", "2")], 10⟩ : Record)].filter
            (fun r => r.identity_key = "k1"))[j]? = some r2 →
        r2.created_at < (⟨"k1", "a", some [("v", "1")], 10⟩ : Record).created_at :=
  (C3_content_key_index
    [⟨"k1", "a", some [("v", "1")], 10⟩, ⟨"k1", "b", some [("v", "2")], 10⟩] "k1").2
    ⟨"k1", "a", some [("v", "1")], 10⟩ (by decide)

/-- C4: payload comparison treats a null payload and an empty-mapping payload
as equal: two replicas holding records for the same identity key, identical
except that one payload is null and the other an empty container, produce no
Pending Update at all. -/
theorem C4_null_normalization (A B : Replica) (ra rb : Record)
    (hA : A.records = [ra]) (hB : B.records = [rb])
    (hk : rb.identity_key = ra.identity_key)
    (ht : rb.created_at = ra.created_at)
    (hpa : ra.payload = none) (hpb : rb.payload = some []) :
    reconcile [A, B] = [] := by
  have hidxA : buildIndex A.records = [(ra.identity_key, ra)] := by
    rw [hA, buildIndex, List.foldl_cons, List.foldl_nil, upsertIndex]
  have hidxB : buildIndex B.records = [(ra.identity_key, rb)] := by
    rw [hB, buildIndex, List.foldl_cons, List.foldl_nil, upsertIndex, hk]
  have hg : globalIndexOf [A, B] =
      [(ra.identity_key, [(A.replica_id, ra), (B.replica_id, rb)])] := by
    rw [globalIndexOf, List.map_cons, List.map_cons, List.map_nil, hidxA, hidxB]
    rw [globalIndexAux, List.foldl_cons, List.foldl_cons, List.foldl_nil]
    rw [addReplicaIndex, List.foldl_cons, List.foldl_nil]
    rw [addReplicaIndex, List.foldl_cons, List.foldl_nil]
    rw [addEntry, addEntry, if_pos rfl]
    simp
  rw [reconcile, hg]
  simp [detectAll, detectKey, pickAuth, pickAuthAux, detectOthers, normalizePayload,
    hpa, hpb, ht]

/-- C4 witness: a concrete null-versus-empty pair yields an empty plan. -/
theorem C4_null_normalization_witness :
    reconcile [⟨"A", "A", [⟨"k1", "a", none, 7⟩]⟩,
               ⟨"B", "B", [⟨"k1", "b", some [], 7⟩]⟩] = [] :=
  C4_null_normalization ⟨"A", "A", [⟨"k1", "a", none, 7⟩]⟩
    ⟨"B", "B", [⟨"k1", "b", some [], 7⟩]⟩
    ⟨"k1", "a", none, 7⟩ ⟨"k1", "b", some [], 7⟩ rfl rfl rfl rfl rfl rfl

/-- C5: reconciliation is deterministic: identical inputs (same record sets,
same timestamps, same replica order) give identical, byte-identical
serialized per-replica Pending Update plans. -/
theorem C5_deterministic (rs1 rs2 : List Replica) (h : rs1 = rs2) :
    planByReplica rs1 = planByReplica rs2 ∧
    serializePlan (planByReplica rs1) = serializePlan (planByReplica rs2) := by
  subst h
  exact ⟨rfl, rfl⟩

/-- C5 witness: instantiated on the example replica set. -/
theorem C5_deterministic_witness :
    planByReplica exampleReplicas = planByReplica exampleReplicas ∧
    serializePlan (planByReplica exampleReplicas) =
      serializePlan (planByReplica exampleReplicas) :=
  C5_deterministic exampleReplicas exampleReplicas rfl

/-- C6: every Pending Update of a reconciliation pass carries as new_payload
the payload of a record that attains the globally maximal created_at for its
identity key across all replicas, and source_replica_id names the replica
holding that record. -/
theorem C6_pending_update_invariant (rs : List Replica) :
    ∀ u ∈ reconcile rs, ∃ (rep : Replica) (rec : Record),
      rep ∈ rs ∧ rep.replica_id = u.source_replica_id ∧ rec ∈ rep.records ∧
      rec.identity_key = u.identity_key ∧ u.new_payload = rec.payload ∧
      ∀ rep2 ∈ rs, ∀ r2 ∈ rep2.records, r2.identity_key = u.identity_key →
        r2.created_at ≤ rec.created_at := by
  intro u hu
  rw [reconcile] at hu
  obtain ⟨k, lst, ai, arid, arec, j, rid, rec, hlook, hlen, hp, hj, hne, hdiff, hequ⟩ :=
    plan_provenance hu
  have hE : firstMaxE lst = some (ai, arid, arec) := (pickAuth_eq lst).symm.trans hp
  have hauth_get : lst[ai]? = some (arid, arec) := firstMaxE_get hE
  obtain ⟨rep, hrep, hrepid, hrecmem, hkey, _⟩ := entry_record hlook hauth_get
  have hsrc : u.source_replica_id = arid := by rw [hequ]
  have hnew : u.new_payload = arec.payload := by rw [hequ]
  have hkeyu : u.identity_key = k := by rw [hequ]
  refine ⟨rep, arec, hrep, by rw [hsrc, hrepid], hrecmem, by rw [hkeyu, hkey], hnew, ?_⟩
  intro rep2 hrep2 r2 hr2 hk2
  rw [hkeyu] at hk2
  rcases hidx2 : lookupA (buildIndex rep2.records) k with _ | rec2
  · exact absurd hk2 (buildIndex_complete hidx2 r2 hr2)
  · have h1 : r2.created_at ≤ rec2.created_at := buildIndex_max hidx2 r2 hr2 hk2
    have hmem2 : (rep2.replica_id, rec2) ∈ gLookupSpec rs k := by
      rw [gLookupSpec, List.mem_filterMap]
      exact ⟨rep2, hrep2, by rw [hidx2]; rfl⟩
    have hspec : lst = gLookupSpec rs k := mem_globalIndexOf_spec (lookupA_mem hlook)
    rw [← hspec] at hmem2
    have h2 : rec2.created_at ≤ arec.created_at :=
      firstMaxE_max hE (rep2.replica_id, rec2) hmem2
    omega

/-- C6 witness: instantiated on the example replica set and the update that
sets R1 to the payload of R2. -/
theorem C6_pending_update_invariant_witness :
    ∃ (rep : Replica) (rec : Record),
      rep ∈ exampleReplicas ∧
      rep.replica_id = (⟨"R1", "a1", "k1", some [("value", "A")], some [("value", "B")],
        "R2"⟩ : PendingUpdate).source_replica_id ∧
      rec ∈ rep.records ∧
      rec.identity_key = (⟨"R1", "a1", "k1", some [("value", "A")], some [("value", "B")],
        "R2"⟩ : PendingUpdate).identity_key ∧
      (⟨"R1", "a1", "k1", some [("value", "A")], some [("value", "B")],
        "R2"⟩ : PendingUpdate).new_payload = rec.payload ∧
      ∀ rep2 ∈ exampleReplicas, ∀ r2 ∈ rep2.records,
        r2.identity_key = (⟨"R1", "a1", "k1", some [("value", "A")], some [("value", "B")],
          "R2"⟩ : PendingUpdate).identity_key →
        r2.created_at ≤ rec.created_at :=
  C6_pending_update_invariant exampleReplicas
    ⟨"R1", "a1", "k1", some [("value", "A")], some [("value", "B")], "R2"⟩ (by decide)

theorem normalize_length_split (raws : List RawRecord) :
    (raws.filterMap (fun r => (normalizeRecord r).toOption)).length +
      (raws.filter (fun r => r.identity = none)).length = raws.length := by
  induction raws with
  | nil => rfl
  | cons r rest ih =>
    rw [List.filterMap_cons, List.filter_cons]
    rcases hid : r.identity with _ | idv
    · rw [if_pos (by simp [hid])]
      have hnone : (normalizeRecord r).toOption = (none : Option Record) := by
        rw [normalizeRecord, hid]
        rfl
      rw [hnone]
      simp only [List.length_cons]
      omega
    · rw [if_neg (by simp [hid])]
      have hsome : (normalizeRecord r).toOption =
          some ⟨canonicalIdentityKey idv, r.record_id, r.payload, r.created_at⟩ := by
        rw [normalizeRecord, hid]
        rfl
      rw [hsome]
      simp only [List.length_cons]
      omega

/-- C7: the Record Normalizer fails exactly when the identity field is
absent; normalizing a list drops exactly the malformed records, counts them,
and never aborts: kept records plus skipped count add up to the input
length. -/
theorem C7_record_normalizer (raw : RawRecord) (raws : List RawRecord) :
    ((∃ e, normalizeRecord raw = Except.error e) ↔ raw.identity = none) ∧
    (normalizeAll raws).1 = raws.filterMap (fun r => (normalizeRecord r).toOption) ∧
    (normalizeAll raws).2 = (raws.filter (fun r => r.identity = none)).length ∧
    (normalizeAll raws).1.length + (normalizeAll raws).2 = raws.length := by
  have haux := normalizeAll_aux raws ([], 0)
  have h1 : (normalizeAll raws).1 = raws.filterMap (fun r => (normalizeRecord r).toOption) := by
    rw [normalizeAll]
    rw [haux.1]
    simp
  have h2 : (normalizeAll raws).2 = (raws.filter (fun r => r.identity = none)).length := by
    rw [normalizeAll]
    rw [haux.2]
    simp
  refine ⟨?_, h1, h2, ?_⟩
  · constructor
    · rintro ⟨e, he⟩
      rcases hid : raw.identity with _ | idv
      · rfl
      · rw [normalizeRecord, hid] at he
        simp at he
    · intro hid
      exact ⟨MalformedRecordError.missingIdentity, by rw [normalizeRecord, hid]⟩
  · rw [h1, h2]
    exact normalize_length_split raws

/-- C8: get_base_url is total: it returns the mapped URL for prod, acc and
dev, and silently falls back to the prod URL on every other input string. -/
theorem C8_get_base_url_total (env : String)
    (h1 : env ≠ "prod") (h2 : env ≠ "acc") (h3 : env ≠ "dev") :
    get_base_url "prod" = "https://api.elmar.nl/tools/" ∧
    get_base_url "acc" = "https://api.acc.elmar.nl/tools/" ∧
    get_base_url "dev" = "http://localhost:4000/" ∧
    get_base_url env = "https://api.elmar.nl/tools/" := by
  refine ⟨rfl, rfl, rfl, ?_⟩
  rw [get_base_url, toolsUrls]
  rw [lookupA, if_neg (fun he => h1 he.symm)]
  rw [lookupA, if_neg (fun he => h2 he.symm)]
  rw [lookupA, if_neg (fun he => h3 he.symm)]
  rw [lookupA]
  rfl

/-- C8 witness: an unknown environment string falls back to prod. -/
theorem C8_get_base_url_total_witness :
    get_base_url "prod" = "https://api.elmar.nl/tools/" ∧
    get_base_url "acc" = "https://api.acc.elmar.nl/tools/" ∧
    get_base_url "dev" = "http://localhost:4000/" ∧
    get_base_url "staging" = "https://api.elmar.nl/tools/" :=
  C8_get_base_url_total "staging" (by decide) (by decide) (by decide)


/-- C9: parse_figma_url fails exactly when the stripped path does not start
with at least two segments headed by file or design; on success it returns
the second segment together with the first node-id query value with every
dash replaced by a colon (None when the parameter is absent). -/
theorem C9_parse_figma_url_spec (path query : String) :
    ((∃ msg, parse_figma_url path query = Except.error msg) ↔
      ¬ ∃ (p0 p1 : String) (rest : List String),
        splitPathSegments path = p0 :: p1 :: rest ∧ (p0 = "file" ∨ p0 = "design")) ∧
    (∀ (p0 p1 : String) (rest : List String),
      splitPathSegments path = p0 :: p1 :: rest → (p0 = "file" ∨ p0 = "design") →
      parse_figma_url path query = Except.ok (p1, nodeIdOf query)) ∧
    nodeIdOf query = (firstValue (qsPairs query) "node-id").map replaceDashColon := by
  refine ⟨?_, ?_, nodeIdOf_firstValue query⟩
  · rcases hs : splitPathSegments path with _ | ⟨p0, tail⟩
    · have hred : parse_figma_url path query = Except.error "Invalid Figma URL" := by
        rw [parse_figma_url, hs]
      rw [hred]
      constructor
      · rintro ⟨msg, hmsg⟩ ⟨q0, q1, qrest, hq, hq0⟩
        simp at hq
      · intro _
        exact ⟨"Invalid Figma URL", rfl⟩
    · rcases tail with _ | ⟨p1, rest⟩
      · have hred : parse_figma_url path query = Except.error "Invalid Figma URL" := by
          rw [parse_figma_url, hs]
        rw [hred]
        constructor
        · rintro ⟨msg, hmsg⟩ ⟨q0, q1, qrest, hq, hq0⟩
          simp at hq
        · intro _
          exact ⟨"Invalid Figma URL", rfl⟩
      · have hred : parse_figma_url path query =
            if p0 = "file" ∨ p0 = "design" then Except.ok (p1, nodeIdOf query)
            else Except.error "Invalid Figma URL" := by
          rw [parse_figma_url, hs]
        by_cases hp0 : p0 = "file" ∨ p0 = "design"
        · rw [hred, if_pos hp0]
          constructor
          · rintro ⟨msg, hmsg⟩
            simp at hmsg
          · intro hno
            exact absurd ⟨p0, p1, rest, rfl, hp0⟩ hno
        · rw [hred, if_neg hp0]
          constructor
          · rintro ⟨msg, hmsg⟩ ⟨q0, q1, qrest, hq, hq0⟩
            simp at hq
            refine hp0 ?_
            rw [hq.1]
            exact hq0
          · intro _
            exact ⟨"Invalid Figma URL", rfl⟩
  · intro p0 p1 rest hs hp0
    have hred : parse_figma_url path query =
        if p0 = "file" ∨ p0 = "design" then Except.ok (p1, nodeIdOf query)
        else Except.error "Invalid Figma URL" := by
      rw [parse_figma_url, hs]
    rw [hred, if_pos hp0]

/-- C9 witness: a design URL with a node-id parameter parses to the file key
and the colon-form node id. -/
theorem C9_parse_figma_url_spec_witness :
    parse_figma_url "/design/KEY123/My-File" "node-id=12-34" =
      Except.ok ("KEY123", some "12:34") :=
  (C9_parse_figma_url_spec "/design/KEY123/My-File" "node-id=12-34").2.1
    "design" "KEY123" ["My-File"] (by rfl) (Or.inr rfl)

/-- C10: run_jira never surfaces a non-zero exit code: with the subprocess
modelled as a function, a zero exit returns stdout unchanged, and a non-zero
exit returns the JSON error object built from stderr, else stdout, else the
fixed fallback text, whitespace-stripped. -/
theorem C10_run_jira_errors (args : List String) (raw : Bool)
    (subproc : List String → SubprocResult) (r : SubprocResult)
    (hr : r = subproc (buildJiraCmd args raw)) :
    (r.returncode = 0 → run_jira args raw subproc = r.stdout) ∧
    (r.returncode ≠ 0 → r.stderr ≠ "" →
      run_jira args raw subproc = jsonErrorObj (pyStrip r.stderr)) ∧
    (r.returncode ≠ 0 → r.stderr = "" → r.stdout ≠ "" →
      run_jira args raw subproc = jsonErrorObj (pyStrip r.stdout)) ∧
    (r.returncode ≠ 0 → r.stderr = "" → r.stdout = "" →
      run_jira args raw subproc = jsonErrorObj (pyStrip "Unknown error")) := by
  refine ⟨?_, ?_, ?_, ?_⟩
  · intro h0
    rw [run_jira, ← hr]
    rw [if_neg (by simp [h0])]
  · intro h0 hs
    rw [run_jira, ← hr]
    rw [if_pos h0, pyOr, if_neg hs]
  · intro h0 hs ho
    rw [run_jira, ← hr]
    rw [if_pos h0, pyOr, if_pos hs, pyOr, if_neg ho]
  · intro h0 hs ho
    rw [run_jira, ← hr]
    rw [if_pos h0, pyOr, if_pos hs, pyOr, if_pos ho]

/-- C10 witness: a failing subprocess with stderr text yields the JSON error
object, at a concrete input. -/
theorem C10_run_jira_errors_witness :
    run_jira ["issue", "list"] true (fun _ => ⟨1, "", " boom\n"⟩) =
      "\x7b\"error\": \"boom\"\x7d" :=
  (C10_run_jira_errors ["issue", "list"] true (fun _ => ⟨1, "", " boom\n"⟩)
    ⟨1, "", " boom\n"⟩ rfl).2.1 (by decide) (by decide)
